import Mathlib

/-!
A verification development for the `siad` repository.

Part 1 models the contract-manager storage engine (the module
`modules/host/contractmanager`).  The repository snapshot only contains the
test file `sectorupdate_test.go` for this module, so the engine itself is
modelled from the specification document (each such definition carries a
doc comment starting with "Modelled from the spec:").

Part 2 embeds the renter stuck-chunk logic, whose Go source is present in
the repository (the `stuckQueue` type and `managedAddStuckChunksToHeap`).
-/

set_option linter.unusedVariables false

/-- Decidable equality on `Except`, used to evaluate the engine's fallible
operations on concrete inputs. -/
instance {ε α : Type} [DecidableEq ε] [DecidableEq α] :
    DecidableEq (Except ε α) := fun x y =>
  match x, y with
  | .ok a, .ok b =>
      if h : a = b then .isTrue (by rw [h])
      else .isFalse (by intro hc; cases hc; exact h rfl)
  | .ok _, .error _ => .isFalse (by intro hc; cases hc)
  | .error _, .ok _ => .isFalse (by intro hc; cases hc)
  | .error e, .error e' =>
      if h : e = e' then .isTrue (by rw [h])
      else .isFalse (by intro hc; cases hc; exact h rfl)

/-- Association list lookup keyed by decidable equality; returns the value of
the first entry whose key matches. -/
def alookup {κ : Type} {β : Type} [DecidableEq κ] (k : κ) :
    List (κ × β) → Option β
  | [] => none
  | (k', v) :: rest => if k' = k then some v else alookup k rest

/-- Association list update: replaces the value of every entry with the given
key, or appends a fresh entry when the key is absent. -/
def aset {κ : Type} {β : Type} [DecidableEq κ] (k : κ) (v : β) :
    List (κ × β) → List (κ × β)
  | [] => [(k, v)]
  | (k', v') :: rest =>
      if k' = k then (k', v) :: rest else (k', v') :: aset k v rest

/-- Association list removal of every entry with the given key. -/
def aerase {κ : Type} {β : Type} [DecidableEq κ] (k : κ) :
    List (κ × β) → List (κ × β)
  | [] => []
  | (k', v') :: rest =>
      if k' = k then aerase k rest else (k', v') :: aerase k rest

theorem alookup_nil {κ β : Type} [DecidableEq κ] (k : κ) :
    alookup k ([] : List (κ × β)) = none := rfl

theorem alookup_cons {κ β : Type} [DecidableEq κ] (k k' : κ) (v : β)
    (rest : List (κ × β)) :
    alookup k ((k', v) :: rest) = if k' = k then some v else alookup k rest := rfl

theorem alookup_aset_self {κ β : Type} [DecidableEq κ] (k : κ) (v : β) :
    ∀ l : List (κ × β), alookup k (aset k v l) = some v := by
  intro l
  induction l with
  | nil => simp [aset, alookup]
  | cons e rest ih =>
      obtain ⟨k', v'⟩ := e
      by_cases h : k' = k <;> simp [aset, alookup, h, ih]

theorem alookup_aset_ne {κ β : Type} [DecidableEq κ] (k k' : κ) (v : β)
    (hne : k ≠ k') : ∀ l : List (κ × β), alookup k' (aset k v l) = alookup k' l := by
  intro l
  induction l with
  | nil => simp [aset, alookup, hne]
  | cons e rest ih =>
      obtain ⟨k'', v''⟩ := e
      by_cases h : k'' = k
      · subst h
        simp [aset, alookup, hne, ih]
      · simp [aset, alookup, h, ih]

theorem alookup_append {κ β : Type} [DecidableEq κ] (k : κ)
    (l₁ l₂ : List (κ × β)) :
    alookup k (l₁ ++ l₂) =
      match alookup k l₁ with
      | some v => some v
      | none => alookup k l₂ := by
  induction l₁ with
  | nil => simp [alookup]
  | cons e rest ih =>
      obtain ⟨k', v'⟩ := e
      by_cases h : k' = k <;> simp [alookup, h, ih]

theorem mem_of_alookup_eq_some {κ β : Type} [DecidableEq κ] {k : κ} {v : β} :
    ∀ {l : List (κ × β)}, alookup k l = some v → (k, v) ∈ l := by
  intro l
  induction l with
  | nil => intro h; simp [alookup] at h
  | cons e rest ih =>
      obtain ⟨k', v'⟩ := e
      intro h
      by_cases hk : k' = k
      · subst hk
        have h' : v' = v := by simpa [alookup] using h
        subst h'
        exact List.mem_cons_self _ _
      · simp only [alookup, if_neg hk] at h
        exact List.mem_cons_of_mem _ (ih h)

theorem alookup_eq_some_of_unique {κ β : Type} [DecidableEq κ] {k : κ}
    {v : β} : ∀ {l : List (κ × β)}, (k, v) ∈ l →
    (∀ v', (k, v') ∈ l → v' = v) → alookup k l = some v := by
  intro l
  induction l with
  | nil => intro h; simp at h
  | cons e rest ih =>
      obtain ⟨k', v'⟩ := e
      intro hmem huniq
      by_cases hk : k' = k
      · subst hk
        have : v' = v := huniq v' (List.mem_cons_self _ _)
        simp [alookup, this]
      · rcases List.mem_cons.mp hmem with heq | hmem
        · exact absurd (congrArg Prod.fst heq).symm hk
        · simp only [alookup, if_neg hk]
          exact ih hmem fun v' h => huniq v' (List.mem_cons_of_mem _ h)

theorem alookup_eq_none_of_not_mem {κ β : Type} [DecidableEq κ] {k : κ} :
    ∀ {l : List (κ × β)}, (∀ v, (k, v) ∉ l) → alookup k l = none := by
  intro l
  induction l with
  | nil => intro _; rfl
  | cons e rest ih =>
      obtain ⟨k', v'⟩ := e
      intro h
      by_cases hk : k' = k
      · subst hk
        exact absurd (List.mem_cons_self _ _) (h v')
      · simp only [alookup, if_neg hk]
        exact ih fun v hv => h v (List.mem_cons_of_mem _ hv)

/-- A failed lookup means the key owns no entry in the list. -/
theorem not_mem_of_alookup_none {κ β : Type} [DecidableEq κ] {k : κ} :
    ∀ {l : List (κ × β)}, alookup k l = none → ∀ v, (k, v) ∉ l := by
  intro l
  induction l with
  | nil => intro _ v hmem; simp at hmem
  | cons e rest ih =>
      obtain ⟨k', v'⟩ := e
      intro h v hmem
      by_cases hk : k' = k
      · simp [alookup, hk] at h
      · rcases List.mem_cons.mp hmem with heq | hmem
        · exact hk (congrArg Prod.fst heq).symm
        · simp only [alookup, if_neg hk] at h
          exact ih h v hmem

namespace ContractManager

/-- Byte strings are modelled as lists of naturals. -/
abbrev Bytes := List Nat

/-- Modelled from the spec: a sector ID is the 12-byte prefix of the 32-byte
Merkle root ("the sector ID is a 12-byte prefix (first 12 bytes of the
root)"). -/
abbrev SectorId := List Nat

/-- Modelled from the spec: derive a sector ID from a Merkle root by taking
the first 12 bytes. -/
def sectorId (root : Bytes) : SectorId := root.take 12

/-- Modelled from the spec: the saturation bound of the 16-bit primary
reference count (65,535). -/
def maxUint16 : Nat := 65535

/-- Modelled from the spec: storage folders must have a capacity that is a
multiple of 64 sectors (the granularity). -/
def storageFolderGranularity : Nat := 64

/-- Modelled from the spec: engine configuration; `sector_size` is listed
among the configuration options recognized by the engine (production value
4 MiB, see `prodConfig`). -/
structure Config where
  sectorSize : Nat
deriving Repr, DecidableEq

/-- The production configuration: 4 MiB sectors. -/
def prodConfig : Config := ⟨4 * 1024 * 1024⟩

/-- Modelled from the spec: one occupied slot of a storage folder, i.e. one
entry of the metadata file (`sector_id[12] || count_u16`) paired with the
sector payload held in the sector-data file at the same index. -/
structure Slot where
  id : SectorId
  count : Nat
  data : Bytes
deriving Repr, DecidableEq

/-- Modelled from the spec: a storage folder — index, declared capacity (in
sectors), the per-slot contents of its data/metadata files, the injected
write-failure dependency, and the failed-write health counter. -/
structure Folder where
  index : Nat
  capacity : Nat
  slots : List (Option Slot)
  failing : Bool
  failedWrites : Nat
deriving Repr, DecidableEq

/-- Modelled from the spec: a sector location —
`(folder_index, sector_index, count)` with the primary count saturating at
65,535. -/
structure Location where
  folder : Nat
  index : Nat
  count : Nat
deriving Repr, DecidableEq

/-- Modelled from the spec: the error kinds surfaced by the public API. -/
inductive CMErr
  | wrongSize
  | insufficientStorage
  | notFound
  | outOfBounds
  | invalidFolderSize
deriving Repr, DecidableEq

/-- Modelled from the spec: the settings snapshot records the folder list
(index, capacity, usage bitmap). -/
structure Settings where
  folders : List (Nat × Nat × List Bool)
deriving Repr, DecidableEq

/-- Modelled from the spec: the WAL record types relevant to folder and
sector updates. -/
inductive WalRecord
  | addFolder (index capacity : Nat)
  | sectorUpdate (folder slot : Nat) (id : SectorId) (count : Nat)
  | removeSector (id : SectorId)
  | overflowUpdate (id : SectorId) (n : Nat)
deriving Repr, DecidableEq

/-- Modelled from the spec: the whole system state — the in-memory contract
manager (folders, sector-location index, overflow map) together with the
durable artifacts (settings snapshot files, WAL files, folder files, and the
overflow file). -/
structure Sys where
  folders : List Folder
  locations : List (SectorId × Location)
  overflow : List (SectorId × Nat)
  settingsDat : Option Settings
  settingsTmp : Option Settings
  wal : List WalRecord
  walTmp : List WalRecord
  files : List (Nat × List (Option Slot))
  overflowFile : List (SectorId × Nat)
deriving Repr, DecidableEq

/-- The freshly initialised contract manager: no folders, empty WAL, no
settings snapshot on disk. -/
def initSys : Sys :=
  { folders := [], locations := [], overflow := [], settingsDat := none,
    settingsTmp := none, wal := [], walTmp := [], files := [],
    overflowFile := [] }

/-- Number of occupied slots of a folder file (the popcount of the usage
bitmap). -/
def usedSlots (slots : List (Option Slot)) : Nat :=
  (slots.filter Option.isSome).length

/-- Modelled from the spec: a folder's consumed capacity in sectors
(`capacity = used + remaining`, `used = popcount(usage)`). -/
def folderUsed (f : Folder) : Nat := usedSlots f.slots

/-- Modelled from the spec: a folder's remaining capacity in sectors. -/
def capacityRemaining (f : Folder) : Nat := f.capacity - folderUsed f

/-- Total consumed capacity (in sectors) across all folders. -/
def totalUsed (fs : List Folder) : Nat := (fs.map folderUsed).sum

/-- Modelled from the spec: the first-fit slot allocator over the usage
bitmap — index of the first free slot, if any. -/
def findFreeSlot : List (Option Slot) → Option Nat
  | [] => none
  | none :: _ => some 0
  | some _ :: rest => (findFreeSlot rest).map (· + 1)

/-- Update the primary count recorded in a folder file's metadata entry at
one slot (used when a virtual sector's count changes). -/
def setSlotCount (slots : List (Option Slot)) (i c : Nat) :
    List (Option Slot) :=
  match slots[i]? with
  | some (some sl) => slots.set i (some { sl with count := c })
  | _ => slots

/-- Modelled from the spec: folder selection with failure fallback.  Walks
the folder list; a folder with no free slot is skipped; a folder whose
writes fail gets its failed-write counter incremented and the reservation
rolled back, and the next folder is tried; the first healthy folder with a
free slot receives the new sector.  Returns the updated folder list and, on
success, the chosen `(folder index, slot index)`. -/
def tryPlace (id : SectorId) (data : Bytes) :
    List Folder → List Folder × Option (Nat × Nat)
  | [] => ([], none)
  | f :: rest =>
      match findFreeSlot f.slots with
      | none =>
          let (rest', r) := tryPlace id data rest
          (f :: rest', r)
      | some j =>
          if f.failing then
            let (rest', r) := tryPlace id data rest
            ({ f with failedWrites := f.failedWrites + 1 } :: rest', r)
          else
            ({ f with slots := f.slots.set j (some ⟨id, 1, data⟩) } :: rest,
              some (f.index, j))

/-- Apply an update to the folder with the given index. -/
def updateFolder (fs : List Folder) (i : Nat) (g : Folder → Folder) :
    List Folder :=
  fs.map fun f => if f.index = i then g f else f

/-- Apply an update to the durable folder file with the given key. -/
def updateFile (files : List (Nat × List (Option Slot))) (i : Nat)
    (g : List (Option Slot) → List (Option Slot)) :
    List (Nat × List (Option Slot)) :=
  files.map fun e => if e.1 = i then (e.1, g e.2) else e

/-- The next folder index to assign: one more than the largest index in
use. -/
def nextFolderIndex (fs : List Folder) : Nat :=
  fs.foldl (fun m f => max m (f.index + 1)) 0

/-- Modelled from the spec: `AddStorageFolder` — validates that the size is
a (nonzero) multiple of the 64-sector granularity, creates the folder files,
appends a WAL record, and registers the folder in memory. -/
def addStorageFolder (s : Sys) (cap : Nat) : Except CMErr Sys :=
  if cap = 0 ∨ cap % storageFolderGranularity ≠ 0 then
    .error .invalidFolderSize
  else
    let i := nextFolderIndex s.folders
    .ok { s with
      folders := s.folders ++ [⟨i, cap, List.replicate cap none, false, 0⟩],
      files := s.files ++ [(i, List.replicate cap none)],
      wal := s.wal ++ [.addFolder i cap] }

/-- Modelled from the spec: `AddSector(root, data)`.  Fails with `WrongSize`
when the payload is not `sector_size` bytes.  When the ID is already
present, the primary count is incremented, saturating at 65,535 with the
excess recorded in the overflow map (which is persisted in the overflow
file).  Otherwise a folder is selected (`tryPlace`), the sector is written
physically, the location index is extended, and a WAL record is appended.
Fails with `InsufficientStorage` when no folder accepts the write. -/
def addSector (cfg : Config) (s : Sys) (root data : Bytes) :
    Except CMErr Sys :=
  if data.length ≠ cfg.sectorSize then .error .wrongSize
  else
    let id := sectorId root
    match alookup id s.locations with
    | some loc =>
        if loc.count < maxUint16 then
          let c' := loc.count + 1
          .ok { s with
            locations := aset id { loc with count := c' } s.locations,
            folders := updateFolder s.folders loc.folder
              (fun f => { f with slots := setSlotCount f.slots loc.index c' }),
            files := updateFile s.files loc.folder
              (fun sl => setSlotCount sl loc.index c'),
            wal := s.wal ++ [.sectorUpdate loc.folder loc.index id c'] }
        else
          let o' := (alookup id s.overflow).getD 0 + 1
          .ok { s with
            overflow := aset id o' s.overflow,
            overflowFile := aset id o' s.overflowFile,
            wal := s.wal ++ [.overflowUpdate id o'] }
    | none =>
        match tryPlace id data s.folders with
        | (folders', some (fi, si)) =>
            .ok { s with
              folders := folders',
              files := updateFile s.files fi
                (fun sl => sl.set si (some ⟨id, 1, data⟩)),
              locations := (id, ⟨fi, si, 1⟩) :: s.locations,
              wal := s.wal ++ [.sectorUpdate fi si id 1] }
        | (_, none) => .error .insufficientStorage

/-- Look up a folder by its index. -/
def findFolder (fs : List Folder) (i : Nat) : Option Folder :=
  fs.find? fun f => f.index == i

/-- Modelled from the spec: `ReadSector(root)` — returns the full sector
bytes, or `NotFound` when the ID is unknown. -/
def readSector (s : Sys) (root : Bytes) : Except CMErr Bytes :=
  match alookup (sectorId root) s.locations with
  | none => .error .notFound
  | some loc =>
      match findFolder s.folders loc.folder with
      | none => .error .notFound
      | some f =>
          match f.slots[loc.index]? with
          | some (some sl) => .ok sl.data
          | _ => .error .notFound

/-- Modelled from the spec: `ReadPartialSector(root, offset, length)` —
fails with `OutOfBounds` when `offset + length > sector_size`, otherwise
returns the requested byte range of the stored sector (zero-length reads at
`offset = sector_size` succeed). -/
def readPartialSector (cfg : Config) (s : Sys) (root : Bytes)
    (off n : Nat) : Except CMErr Bytes :=
  if off + n > cfg.sectorSize then .error .outOfBounds
  else
    match readSector s root with
    | .error e => .error e
    | .ok data => .ok ((data.drop off).take n)

/-- Modelled from the spec: `RemoveSector(root)` — decrements the reference
count, consuming overflow first while the primary count is saturated; a zero
overflow entry is kept while the count stays saturated, and is erased
(together with a decrement of the primary count) on the following removal;
when the count reaches 0 the slot is freed and the metadata entry erased. -/
def removeSector (s : Sys) (root : Bytes) : Except CMErr Sys :=
  let id := sectorId root
  match alookup id s.locations with
  | none => .error .notFound
  | some loc =>
      match alookup id s.overflow with
      | some (o + 1) =>
          .ok { s with
            overflow := aset id o s.overflow,
            overflowFile := aset id o s.overflowFile,
            wal := s.wal ++ [.overflowUpdate id o] }
      | some 0 =>
          let c' := loc.count - 1
          .ok { s with
            overflow := aerase id s.overflow,
            overflowFile := aerase id s.overflowFile,
            locations := aset id { loc with count := c' } s.locations,
            folders := updateFolder s.folders loc.folder
              (fun f => { f with slots := setSlotCount f.slots loc.index c' }),
            files := updateFile s.files loc.folder
              (fun sl => setSlotCount sl loc.index c'),
            wal := s.wal ++ [.sectorUpdate loc.folder loc.index id c'] }
      | none =>
          if loc.count ≤ 1 then
            .ok { s with
              locations := aerase id s.locations,
              folders := updateFolder s.folders loc.folder
                (fun f => { f with slots := f.slots.set loc.index none }),
              files := updateFile s.files loc.folder
                (fun sl => sl.set loc.index none),
              wal := s.wal ++ [.removeSector id] }
          else
            let c' := loc.count - 1
            .ok { s with
              locations := aset id { loc with count := c' } s.locations,
              folders := updateFolder s.folders loc.folder
                (fun f => { f with slots := setSlotCount f.slots loc.index c' }),
              files := updateFile s.files loc.folder
                (fun sl => setSlotCount sl loc.index c'),
              wal := s.wal ++ [.sectorUpdate loc.folder loc.index id c'] }

/-- The settings snapshot taken from the current in-memory state: folder
list with usage bitmaps. -/
def settingsOfSys (s : Sys) : Settings :=
  ⟨s.folders.map fun f => (f.index, f.capacity, f.slots.map Option.isSome)⟩

/-- Modelled from the spec: the shutdown checkpoint.  With `suppress =
false` the full protocol runs: the snapshot is written and renamed over
`settings.dat` and the WAL files are truncated/deleted.  With `suppress =
true` the fault-injection points of `dependencyNoSettingsSave` are active:
the snapshot only reaches `settings.tmp` (the rename is suppressed) and both
WAL files survive. -/
def close (s : Sys) (suppress : Bool) : Sys :=
  if suppress then
    { s with settingsTmp := some (settingsOfSys s) }
  else
    { s with
      settingsDat := some (settingsOfSys s),
      settingsTmp := none,
      wal := [],
      walTmp := [] }

/-- Modelled from the spec: recovery's settings load — `settings.dat`, or
`settings.tmp` if the former is absent; yields the folder list (index,
capacity). -/
def baseFolderList (s : Sys) : List (Nat × Nat) :=
  match s.settingsDat with
  | some st => st.folders.map fun e => (e.1, e.2.1)
  | none =>
      match s.settingsTmp with
      | some st => st.folders.map fun e => (e.1, e.2.1)
      | none => []

/-- Modelled from the spec: WAL replay of the folder list — records are
applied in order and idempotently (an `AddStorageFolder` record for an
already-known index is a no-op). -/
def replayFolders (base : List (Nat × Nat)) :
    List WalRecord → List (Nat × Nat)
  | [] => base
  | .addFolder i c :: rest =>
      replayFolders (if base.any fun e => e.1 == i then base else base ++ [(i, c)]) rest
  | _ :: rest => replayFolders base rest

/-- Modelled from the spec: reopen one storage folder from its durable
files; health counters and fault injection reset on restart. -/
def rebuildFolder (files : List (Nat × List (Option Slot))) (i c : Nat) :
    Folder :=
  { index := i, capacity := c,
    slots := (alookup i files).getD (List.replicate c none),
    failing := false, failedWrites := 0 }

/-- The sector locations recorded in one folder file, slot by slot,
starting at slot index `j`. -/
def slotLocationsAux (fi : Nat) : Nat → List (Option Slot) →
    List (SectorId × Location)
  | _, [] => []
  | j, none :: rest => slotLocationsAux fi (j + 1) rest
  | j, some sl :: rest =>
      (sl.id, ⟨fi, j, sl.count⟩) :: slotLocationsAux fi (j + 1) rest

/-- The sector locations recorded in one folder's metadata file. -/
def slotLocations (fi : Nat) (slots : List (Option Slot)) :
    List (SectorId × Location) :=
  slotLocationsAux fi 0 slots

/-- Modelled from the spec: rebuild of the sector-location index from the
metadata files of all folders. -/
def locationsOfFolders (fs : List Folder) : List (SectorId × Location) :=
  fs.flatMap fun f => slotLocations f.index f.slots

/-- Modelled from the spec: startup recovery — load the settings snapshot
(`settings.dat`, falling back to `settings.tmp`), replay the WAL records of
`wal.dat.tmp` and `wal.dat` in order, rebuild each folder and its usage from
the durable folder files, rebuild the sector-location index from the
metadata files, and reload the overflow map from its file. -/
def recover (s : Sys) : Sys :=
  let fl := replayFolders (baseFolderList s) (s.walTmp ++ s.wal)
  let fs := fl.map fun e => rebuildFolder s.files e.1 e.2
  { folders := fs,
    locations := locationsOfFolders fs,
    overflow := s.overflowFile,
    settingsDat := s.settingsDat,
    settingsTmp := s.settingsTmp,
    wal := s.wal,
    walTmp := s.walTmp,
    files := s.files,
    overflowFile := s.overflowFile }

/-- The states reachable from a fresh contract manager by successful
`AddStorageFolder` and `AddSector` calls. -/
inductive Reachable (cfg : Config) : Sys → Prop
  | init : Reachable cfg initSys
  | addFolder {s s' : Sys} {cap : Nat} :
      Reachable cfg s → addStorageFolder s cap = .ok s' → Reachable cfg s'
  | addSector {s s' : Sys} {root data : Bytes} :
      Reachable cfg s → addSector cfg s root data = .ok s' → Reachable cfg s'

theorem folder_index_inj {fs : List Folder}
    (hnd : (fs.map Folder.index).Nodup) {f₁ f₂ : Folder} (h₁ : f₁ ∈ fs)
    (h₂ : f₂ ∈ fs) (hidx : f₁.index = f₂.index) : f₁ = f₂ := by
  induction fs with
  | nil => simp at h₁
  | cons g rest ih =>
      simp only [List.map_cons, List.nodup_cons] at hnd
      rcases List.mem_cons.mp h₁ with rfl | hm₁
      · rcases List.mem_cons.mp h₂ with rfl | hm₂
        · rfl
        · exact absurd (hidx ▸ List.mem_map_of_mem Folder.index hm₂) hnd.1
      · rcases List.mem_cons.mp h₂ with rfl | hm₂
        · exact absurd (hidx ▸ List.mem_map_of_mem Folder.index hm₁) hnd.1
        · exact ih hnd.2 hm₁ hm₂

theorem foldl_max_le (fs : List Folder) : ∀ acc : Nat,
    acc ≤ fs.foldl (fun m g => max m (g.index + 1)) acc := by
  induction fs with
  | nil => intro acc; exact le_refl acc
  | cons g rest ih =>
      intro acc
      exact le_trans (le_max_left acc (g.index + 1)) (ih (max acc (g.index + 1)))

theorem nextFolderIndex_aux {f : Folder} :
    ∀ (fs : List Folder) (acc : Nat), f ∈ fs →
      f.index < fs.foldl (fun m g => max m (g.index + 1)) acc := by
  intro fs
  induction fs with
  | nil => intro acc h; simp at h
  | cons g rest ih =>
      intro acc h
      rcases List.mem_cons.mp h with rfl | h
      · calc f.index < f.index + 1 := Nat.lt_succ_self _
          _ ≤ max acc (f.index + 1) := le_max_right _ _
          _ ≤ _ := foldl_max_le rest _
      · exact ih _ h

theorem nextFolderIndex_lt {fs : List Folder} {f : Folder} (hf : f ∈ fs) :
    f.index < nextFolderIndex fs :=
  nextFolderIndex_aux fs 0 hf

theorem findFreeSlot_spec : ∀ {slots : List (Option Slot)} {j : Nat},
    findFreeSlot slots = some j → slots[j]? = some none := by
  intro slots
  induction slots with
  | nil => intro j h; simp [findFreeSlot] at h
  | cons o rest ih =>
      intro j h
      match o with
      | none =>
          simp only [findFreeSlot, Option.some.injEq] at h
          subst h
          simp
      | some sl =>
          simp only [findFreeSlot] at h
          cases hr : findFreeSlot rest with
          | none => rw [hr] at h; simp at h
          | some a =>
              rw [hr] at h
              simp only [Option.map_some', Option.some.injEq] at h
              subst h
              simpa using ih hr

theorem findFreeSlot_lt_length {slots : List (Option Slot)} {j : Nat}
    (h : findFreeSlot slots = some j) : j < slots.length := by
  have := findFreeSlot_spec h
  exact (List.getElem?_eq_some.mp this).1

theorem findFreeSlot_none : ∀ {slots : List (Option Slot)},
    findFreeSlot slots = none ↔ ∀ o ∈ slots, o.isSome := by
  intro slots
  induction slots with
  | nil => simp [findFreeSlot]
  | cons o rest ih =>
      match o with
      | none => simp [findFreeSlot]
      | some sl =>
          simp only [findFreeSlot, Option.map_eq_none', ih]
          constructor
          · intro h o ho
            rcases List.mem_cons.mp ho with rfl | ho
            · rfl
            · exact h o ho
          · intro h o ho
            exact h o (List.mem_cons_of_mem _ ho)

theorem setSlotCount_length (slots : List (Option Slot)) (i c : Nat) :
    (setSlotCount slots i c).length = slots.length := by
  unfold setSlotCount
  cases h : slots[i]? with
  | none => rfl
  | some o =>
      cases o with
      | none => rfl
      | some sl => simp [List.length_set]

theorem setSlotCount_get_self {slots : List (Option Slot)} {i c : Nat}
    {st : Slot} (h : slots[i]? = some (some st)) :
    (setSlotCount slots i c)[i]? = some (some { st with count := c }) := by
  unfold setSlotCount
  rw [h]
  exact List.getElem?_set_self (List.getElem?_eq_some.mp h).1

theorem setSlotCount_get_ne {slots : List (Option Slot)} {i c j : Nat}
    (hne : i ≠ j) : (setSlotCount slots i c)[j]? = slots[j]? := by
  unfold setSlotCount
  cases h : slots[i]? with
  | none => rfl
  | some o =>
      cases o with
      | none => rfl
      | some sl => exact List.getElem?_set_ne hne

theorem mem_updateFolder_of_mem {fs : List Folder} {f : Folder} {i : Nat}
    (g : Folder → Folder) (hf : f ∈ fs) :
    (if f.index = i then g f else f) ∈ updateFolder fs i g :=
  List.mem_map_of_mem _ hf

theorem mem_updateFolder_elim {fs : List Folder} {f' : Folder} {i : Nat}
    {g : Folder → Folder} (h : f' ∈ updateFolder fs i g) :
    ∃ f ∈ fs, f' = if f.index = i then g f else f := by
  obtain ⟨f, hf, heq⟩ := List.mem_map.mp h
  exact ⟨f, hf, heq.symm⟩

theorem updateFolder_map_proj {fs : List Folder} {i : Nat}
    {g : Folder → Folder}
    (hg : ∀ f : Folder, (g f).index = f.index ∧ (g f).capacity = f.capacity) :
    (updateFolder fs i g).map (fun f => (f.index, f.capacity)) =
      fs.map fun f => (f.index, f.capacity) := by
  induction fs with
  | nil => rfl
  | cons f rest ih =>
      simp only [updateFolder, List.map_cons] at ih ⊢
      by_cases h : f.index = i <;> simp [h, (hg f).1, (hg f).2, ih]

theorem updateFolder_map_index {fs : List Folder} {i : Nat}
    {g : Folder → Folder} (hg : ∀ f : Folder, (g f).index = f.index) :
    (updateFolder fs i g).map Folder.index = fs.map Folder.index := by
  induction fs with
  | nil => rfl
  | cons f rest ih =>
      by_cases h : f.index = i <;> simp [updateFolder, h, hg f] at ih ⊢ <;>
        exact ih

theorem updateFolder_map_slots {fs : List Folder} {i : Nat}
    {g : Folder → Folder} {u : List (Option Slot) → List (Option Slot)}
    (hg : ∀ f : Folder, (g f).index = f.index ∧ (g f).slots = u f.slots) :
    (updateFolder fs i g).map (fun f => (f.index, f.slots)) =
      updateFile (fs.map fun f => (f.index, f.slots)) i u := by
  induction fs with
  | nil => rfl
  | cons f rest ih =>
      by_cases h : f.index = i <;>
        simp [updateFolder, updateFile, h, (hg f).1, (hg f).2] at ih ⊢ <;>
        simpa [updateFile] using ih

theorem findFolder_some {fs : List Folder} {j : Nat} {f : Folder}
    (h : findFolder fs j = some f) : f ∈ fs ∧ f.index = j := by
  refine ⟨List.mem_of_find?_eq_some h, ?_⟩
  have := List.find?_some h
  simpa using this

theorem findFolder_eq_some_of_mem {fs : List Folder} {f : Folder}
    (hnd : (fs.map Folder.index).Nodup) (hf : f ∈ fs) :
    findFolder fs f.index = some f := by
  induction fs with
  | nil => simp at hf
  | cons g rest ih =>
      simp only [List.map_cons, List.nodup_cons] at hnd
      rcases List.mem_cons.mp hf with rfl | hm
      · simp [findFolder, List.find?]
      · have hne : g.index ≠ f.index := by
          intro he
          exact hnd.1 (he ▸ List.mem_map_of_mem Folder.index hm)
        have : (g.index == f.index) = false := by
          simp [hne]
        simp only [findFolder, List.find?, this]
        exact ih hnd.2 hm

theorem findFolder_updateFolder {fs : List Folder} {i j : Nat}
    {g : Folder → Folder} (hg : ∀ f : Folder, (g f).index = f.index) :
    findFolder (updateFolder fs i g) j =
      (findFolder fs j).map fun f => if f.index = i then g f else f := by
  induction fs with
  | nil => rfl
  | cons f rest ih =>
      simp only [updateFolder, List.map_cons, findFolder, List.find?_cons] at ih ⊢
      have hidx : (if f.index = i then g f else f).index = f.index := by
        by_cases h : f.index = i <;> simp [h, hg f]
      rw [hidx]
      cases hj : f.index == j with
      | true => simp
      | false => exact ih

theorem replayFolders_append (r₁ r₂ : List WalRecord) :
    ∀ base : List (Nat × Nat),
      replayFolders base (r₁ ++ r₂) = replayFolders (replayFolders base r₁) r₂ := by
  induction r₁ with
  | nil => intro base; rfl
  | cons r rest ih =>
      intro base
      cases r with
      | addFolder i c =>
          simp only [List.cons_append, replayFolders]
          exact ih _
      | sectorUpdate fi si id ct =>
          simp only [List.cons_append, replayFolders]
          exact ih _
      | removeSector id =>
          simp only [List.cons_append, replayFolders]
          exact ih _
      | overflowUpdate id n =>
          simp only [List.cons_append, replayFolders]
          exact ih _

theorem replayFolders_stable {recs : List WalRecord} :
    ∀ {base : List (Nat × Nat)},
      (∀ i c, WalRecord.addFolder i c ∈ recs → base.any fun e => e.1 == i) →
      replayFolders base recs = base := by
  induction recs with
  | nil => intro base _; rfl
  | cons r rest ih =>
      intro base h
      cases r with
      | addFolder i c =>
          have hi : base.any fun e => e.1 == i := h i c (List.mem_cons_self _ _)
          simp only [replayFolders, hi, if_pos]
          exact ih fun i' c' hm => h i' c' (List.mem_cons_of_mem _ hm)
      | sectorUpdate fi si id ct =>
          exact ih fun i' c' hm => h i' c' (List.mem_cons_of_mem _ hm)
      | removeSector id =>
          exact ih fun i' c' hm => h i' c' (List.mem_cons_of_mem _ hm)
      | overflowUpdate id n =>
          exact ih fun i' c' hm => h i' c' (List.mem_cons_of_mem _ hm)

theorem mem_slotLocationsAux {fi : Nat} {k : SectorId} {l : Location} :
    ∀ {slots : List (Option Slot)} {j : Nat},
      (k, l) ∈ slotLocationsAux fi j slots ↔
        (l.folder = fi ∧ ∃ i st, slots[i]? = some (some st) ∧ st.id = k ∧
          l.index = j + i ∧ l.count = st.count) := by
  intro slots
  induction slots with
  | nil =>
      intro j
      simp [slotLocationsAux]
  | cons o rest ih =>
      intro j
      match o with
      | none =>
          rw [slotLocationsAux, ih]
          constructor
          · rintro ⟨hf, i, st, hget, hid, hidx, hcnt⟩
            exact ⟨hf, i + 1, st, by simpa using hget, hid, by omega, hcnt⟩
          · rintro ⟨hf, i, st, hget, hid, hidx, hcnt⟩
            match i with
            | 0 => simp at hget
            | i + 1 =>
                exact ⟨hf, i, st, by simpa using hget, hid, by omega, hcnt⟩
      | some sl =>
          rw [slotLocationsAux]
          constructor
          · intro hmem
            rcases List.mem_cons.mp hmem with heq | hmem
            · injection heq with hk hl
              subst hk
              subst hl
              exact ⟨rfl, 0, sl, by simp, rfl, by simp, rfl⟩
            · obtain ⟨hf, i, st, hget, hid, hidx, hcnt⟩ := ih.mp hmem
              exact ⟨hf, i + 1, st, by simpa using hget, hid, by omega, hcnt⟩
          · rintro ⟨hf, i, st, hget, hid, hidx, hcnt⟩
            match i with
            | 0 =>
                have hst : sl = st := by simpa using hget
                subst hst
                have : l = ⟨fi, j, sl.count⟩ := by
                  cases l
                  simp_all
                rw [this, ← hid]
                exact List.mem_cons_self _ _
            | i + 1 =>
                refine List.mem_cons_of_mem _ (ih.mpr ?_)
                exact ⟨hf, i, st, by simpa using hget, hid, by omega, hcnt⟩

theorem mem_locationsOfFolders {fs : List Folder} {k : SectorId}
    {l : Location} :
    (k, l) ∈ locationsOfFolders fs ↔
      ∃ f ∈ fs, f.index = l.folder ∧ ∃ st, f.slots[l.index]? = some (some st) ∧
        st.id = k ∧ st.count = l.count := by
  simp only [locationsOfFolders, List.mem_flatMap, slotLocations]
  constructor
  · rintro ⟨f, hf, hmem⟩
    obtain ⟨hfi, i, st, hget, hid, hidx, hcnt⟩ := mem_slotLocationsAux.mp hmem
    have : i = l.index := by omega
    subst this
    exact ⟨f, hf, hfi.symm, st, hget, hid, hcnt.symm⟩
  · rintro ⟨f, hf, hfi, st, hget, hid, hcnt⟩
    exact ⟨f, hf, mem_slotLocationsAux.mpr
      ⟨hfi.symm, l.index, st, hget, hid, by omega, hcnt.symm⟩⟩

theorem updateFile_of_not_mem {files : List (Nat × List (Option Slot))}
    {i : Nat} {g : List (Option Slot) → List (Option Slot)}
    (h : ∀ e ∈ files, e.1 ≠ i) : updateFile files i g = files := by
  induction files with
  | nil => rfl
  | cons e rest ih =>
      simp only [updateFile, List.map_cons]
      rw [if_neg (h e (List.mem_cons_self _ _))]
      have := ih fun e' he' => h e' (List.mem_cons_of_mem _ he')
      simp only [updateFile] at this
      rw [this]

theorem tryPlace_ok_spec {id : SectorId} {data : Bytes} :
    ∀ {fs fs' : List Folder} {fi si : Nat},
      tryPlace id data fs = (fs', some (fi, si)) →
      (∃ f ∈ fs, f.index = fi ∧ f.failing = false ∧
        findFreeSlot f.slots = some si ∧
        { f with slots := f.slots.set si (some ⟨id, 1, data⟩) } ∈ fs') ∧
      (∀ f' ∈ fs', ∃ f ∈ fs, f.index = f'.index ∧ f.capacity = f'.capacity ∧
        (f.slots = f'.slots ∨
          (f'.index = fi ∧ f.failing = false ∧ findFreeSlot f.slots = some si ∧
            f'.slots = f.slots.set si (some ⟨id, 1, data⟩)))) ∧
      (∀ f ∈ fs, ∃ f' ∈ fs', f'.index = f.index ∧ f'.capacity = f.capacity ∧
        (f'.slots = f.slots ∨
          (f.index = fi ∧ f.failing = false ∧ findFreeSlot f.slots = some si ∧
            f'.slots = f.slots.set si (some ⟨id, 1, data⟩)))) := by
  intro fs
  induction fs with
  | nil => intro fs' fi si h; simp [tryPlace] at h
  | cons f rest ih =>
      intro fs' fi si h
      obtain ⟨fidx, fcap, fslots, ffail, fw⟩ := f
      cases hfree : findFreeSlot fslots with
      | none =>
          cases hrec : tryPlace id data rest with
          | mk rest' r =>
              rw [tryPlace] at h
              simp only at h
              rw [hfree, hrec] at h
              simp only [Prod.mk.injEq] at h
              obtain ⟨hfs', hr⟩ := h
              subst hfs'
              obtain ⟨⟨f₀, hf₀, hi₀, hfail₀, hfree₀, hmem₀⟩, hfwd, hbwd⟩ :=
                ih (by rw [hrec, hr])
              refine ⟨⟨f₀, List.mem_cons_of_mem _ hf₀, hi₀, hfail₀, hfree₀,
                List.mem_cons_of_mem _ hmem₀⟩, ?_, ?_⟩
              · intro f' hf'
                rcases List.mem_cons.mp hf' with rfl | hf'
                · exact ⟨⟨fidx, fcap, fslots, ffail, fw⟩,
                    List.mem_cons_self _ _, rfl, rfl, Or.inl rfl⟩
                · obtain ⟨g, hg, h1, h2, h3⟩ := hfwd f' hf'
                  exact ⟨g, List.mem_cons_of_mem _ hg, h1, h2, h3⟩
              · intro g hg
                rcases List.mem_cons.mp hg with rfl | hg
                · exact ⟨⟨fidx, fcap, fslots, ffail, fw⟩,
                    List.mem_cons_self _ _, rfl, rfl, Or.inl rfl⟩
                · obtain ⟨f', hf', h1, h2, h3⟩ := hbwd g hg
                  exact ⟨f', List.mem_cons_of_mem _ hf', h1, h2, h3⟩
      | some j =>
          cases ffail with
          | true =>
            cases hrec : tryPlace id data rest with
            | mk rest' r =>
                rw [tryPlace] at h
                simp only at h
                rw [hfree, hrec] at h
                simp only [if_pos, Prod.mk.injEq] at h
                obtain ⟨hfs', hr⟩ := h
                subst hfs'
                obtain ⟨⟨f₀, hf₀, hi₀, hfail₀, hfree₀, hmem₀⟩, hfwd, hbwd⟩ :=
                  ih (by rw [hrec, hr])
                refine ⟨⟨f₀, List.mem_cons_of_mem _ hf₀, hi₀, hfail₀, hfree₀,
                  List.mem_cons_of_mem _ hmem₀⟩, ?_, ?_⟩
                · intro f' hf'
                  rcases List.mem_cons.mp hf' with rfl | hf'
                  · exact ⟨⟨fidx, fcap, fslots, true, fw⟩,
                      List.mem_cons_self _ _, rfl, rfl, Or.inl rfl⟩
                  · obtain ⟨g, hg, h1, h2, h3⟩ := hfwd f' hf'
                    exact ⟨g, List.mem_cons_of_mem _ hg, h1, h2, h3⟩
                · intro g hg
                  rcases List.mem_cons.mp hg with rfl | hg
                  · exact ⟨⟨fidx, fcap, fslots, true, fw + 1⟩,
                      List.mem_cons_self _ _, rfl, rfl, Or.inl rfl⟩
                  · obtain ⟨f', hf', h1, h2, h3⟩ := hbwd g hg
                    exact ⟨f', List.mem_cons_of_mem _ hf', h1, h2, h3⟩
          | false =>
            rw [tryPlace] at h
            simp only at h
            rw [hfree] at h
            simp only [Bool.false_eq_true, if_false, Prod.mk.injEq,
              Option.some.injEq] at h
            obtain ⟨hfs', hfi, hsi⟩ := h
            subst hfs'
            subst hfi
            subst hsi
            refine ⟨⟨⟨fidx, fcap, fslots, false, fw⟩, List.mem_cons_self _ _,
              rfl, rfl, hfree, List.mem_cons_self _ _⟩, ?_, ?_⟩
            · intro f' hf'
              rcases List.mem_cons.mp hf' with rfl | hf'
              · exact ⟨⟨fidx, fcap, fslots, false, fw⟩,
                  List.mem_cons_self _ _, rfl, rfl,
                  Or.inr ⟨rfl, rfl, hfree, rfl⟩⟩
              · exact ⟨f', List.mem_cons_of_mem _ hf', rfl, rfl, Or.inl rfl⟩
            · intro g hg
              rcases List.mem_cons.mp hg with rfl | hg
              · exact ⟨⟨fidx, fcap, fslots.set j (some ⟨id, 1, data⟩),
                  false, fw⟩, List.mem_cons_self _ _, rfl, rfl,
                  Or.inr ⟨rfl, rfl, hfree, rfl⟩⟩
              · exact ⟨g, List.mem_cons_of_mem _ hg, rfl, rfl, Or.inl rfl⟩

theorem tryPlace_proj (id : SectorId) (data : Bytes) : ∀ fs : List Folder,
    ((tryPlace id data fs).1).map (fun f => (f.index, f.capacity)) =
      fs.map fun f => (f.index, f.capacity) := by
  intro fs
  induction fs with
  | nil => rfl
  | cons f rest ih =>
      obtain ⟨fidx, fcap, fslots, ffail, fw⟩ := f
      cases hfree : findFreeSlot fslots with
      | none =>
          cases hrec : tryPlace id data rest with
          | mk rest' r =>
              rw [hrec] at ih
              simp only [tryPlace, hfree, hrec]
              simpa using ih
      | some j =>
          cases ffail with
          | true =>
              cases hrec : tryPlace id data rest with
              | mk rest' r =>
                  rw [hrec] at ih
                  simp only [tryPlace, hfree, hrec]
                  simpa using ih
          | false => simp [tryPlace, hfree]

theorem tryPlace_snd_none_iff (id : SectorId) (data : Bytes) :
    ∀ fs : List Folder, (tryPlace id data fs).2 = none ↔
      ∀ f ∈ fs, f.failing = true ∨ findFreeSlot f.slots = none := by
  intro fs
  induction fs with
  | nil => simp [tryPlace]
  | cons f rest ih =>
      obtain ⟨fidx, fcap, fslots, ffail, fw⟩ := f
      cases hfree : findFreeSlot fslots with
      | none =>
          cases hrec : tryPlace id data rest with
          | mk rest' r =>
              rw [hrec] at ih
              simp only at ih
              simp [tryPlace, hfree, hrec, List.forall_mem_cons, ih]
      | some j =>
          cases ffail with
          | true =>
              cases hrec : tryPlace id data rest with
              | mk rest' r =>
                  rw [hrec] at ih
                  simp only at ih
                  simp [tryPlace, hfree, hrec, List.forall_mem_cons, ih]
          | false =>
              simp [tryPlace, hfree, List.forall_mem_cons]

theorem tryPlace_filesMap {id : SectorId} {data : Bytes} :
    ∀ {fs fs' : List Folder} {fi si : Nat},
      (fs.map Folder.index).Nodup →
      tryPlace id data fs = (fs', some (fi, si)) →
      fs'.map (fun f => (f.index, f.slots)) =
        updateFile (fs.map fun f => (f.index, f.slots)) fi
          (fun sl => sl.set si (some ⟨id, 1, data⟩)) := by
  intro fs
  induction fs with
  | nil => intro fs' fi si _ h; simp [tryPlace] at h
  | cons f rest ih =>
      intro fs' fi si hnd h
      obtain ⟨fidx, fcap, fslots, ffail, fw⟩ := f
      simp only [List.map_cons, List.nodup_cons] at hnd
      cases hfree : findFreeSlot fslots with
      | none =>
          cases hrec : tryPlace id data rest with
          | mk rest' r =>
              rw [tryPlace] at h
              simp only at h
              rw [hfree, hrec] at h
              simp only [Prod.mk.injEq] at h
              obtain ⟨hfs', hr⟩ := h
              subst hfs'
              obtain ⟨⟨f₀, hf₀, hi₀, _, _, _⟩, _, _⟩ :=
                tryPlace_ok_spec (show tryPlace id data rest =
                  (rest', some (fi, si)) by rw [hrec, hr])
              have hne : fidx ≠ fi := by
                intro he
                exact hnd.1 (he ▸ hi₀ ▸ List.mem_map_of_mem Folder.index hf₀)
              simp only [List.map_cons, updateFile, if_neg hne]
              have := ih hnd.2 (by rw [hrec, hr])
              simp only [updateFile] at this
              rw [this]
      | some j =>
          cases ffail with
          | true =>
              cases hrec : tryPlace id data rest with
              | mk rest' r =>
                  rw [tryPlace] at h
                  simp only at h
                  rw [hfree, hrec] at h
                  simp only [if_pos, Prod.mk.injEq] at h
                  obtain ⟨hfs', hr⟩ := h
                  subst hfs'
                  obtain ⟨⟨f₀, hf₀, hi₀, _, _, _⟩, _, _⟩ :=
                    tryPlace_ok_spec (show tryPlace id data rest =
                      (rest', some (fi, si)) by rw [hrec, hr])
                  have hne : fidx ≠ fi := by
                    intro he
                    exact hnd.1 (he ▸ hi₀ ▸ List.mem_map_of_mem Folder.index hf₀)
                  simp only [List.map_cons, updateFile, if_neg hne]
                  have := ih hnd.2 (by rw [hrec, hr])
                  simp only [updateFile] at this
                  rw [this]
          | false =>
              rw [tryPlace] at h
              simp only at h
              rw [hfree] at h
              simp only [Bool.false_eq_true, if_false, Prod.mk.injEq,
                Option.some.injEq] at h
              obtain ⟨hfs', hfi, hsi⟩ := h
              subst hfs'
              subst hfi
              subst hsi
              simp only [List.map_cons, updateFile, if_pos rfl]
              have hrest : updateFile (rest.map fun f => (f.index, f.slots))
                  fidx (fun sl => sl.set j (some ⟨id, 1, data⟩)) =
                  rest.map fun f => (f.index, f.slots) := by
                refine updateFile_of_not_mem ?_
                intro e he heq
                obtain ⟨g, hg, rfl⟩ := List.mem_map.mp he
                exact hnd.1 (heq ▸ List.mem_map_of_mem Folder.index hg)
              simp only [updateFile] at hrest
              rw [hrest]
              simp

theorem alookup_files_of_mem {fs : List Folder} {f : Folder}
    (hnd : (fs.map Folder.index).Nodup) (hf : f ∈ fs) :
    alookup f.index (fs.map fun g => (g.index, g.slots)) = some f.slots := by
  induction fs with
  | nil => simp at hf
  | cons g rest ih =>
      simp only [List.map_cons, List.nodup_cons] at hnd
      rcases List.mem_cons.mp hf with rfl | hm
      · simp [alookup]
      · have hne : g.index ≠ f.index := by
          intro he
          exact hnd.1 (he ▸ List.mem_map_of_mem Folder.index hm)
        simp only [List.map_cons, alookup, if_neg hne]
        exact ih hnd.2 hm

/-- The well-formedness invariant tying the in-memory state to the durable
artifacts; it holds in every reachable state. -/
structure WF (s : Sys) : Prop where
  filesEq : s.files = s.folders.map fun f => (f.index, f.slots)
  replayEq : replayFolders (baseFolderList s) (s.walTmp ++ s.wal) =
    s.folders.map fun f => (f.index, f.capacity)
  idxNodup : (s.folders.map Folder.index).Nodup
  capLen : ∀ f ∈ s.folders, f.slots.length = f.capacity
  locToSlot : ∀ k l, alookup k s.locations = some l →
    ∃ f ∈ s.folders, f.index = l.folder ∧ ∃ st,
      f.slots[l.index]? = some (some st) ∧ st.id = k ∧ st.count = l.count
  slotToLoc : ∀ f ∈ s.folders, ∀ i st, f.slots[i]? = some (some st) →
    alookup st.id s.locations = some ⟨f.index, i, st.count⟩
  overflowEq : s.overflowFile = s.overflow
  walFolders : ∀ i c, WalRecord.addFolder i c ∈ s.walTmp ++ s.wal →
    ∃ f ∈ s.folders, f.index = i ∧ f.capacity = c

/-- In a well-formed state, the location index rebuilt from the folder
metadata files agrees, key by key, with the in-memory location index. -/
theorem derived_lookup_eq {s : Sys} (h : WF s) (k : SectorId) :
    alookup k (locationsOfFolders s.folders) = alookup k s.locations := by
  cases hl : alookup k s.locations with
  | some l =>
      obtain ⟨f, hf, hfi, st, hget, hid, hcnt⟩ := h.locToSlot k l hl
      refine alookup_eq_some_of_unique
        (mem_locationsOfFolders.mpr ⟨f, hf, hfi, st, hget, hid, hcnt⟩) ?_
      intro l' hl'
      obtain ⟨f', hf', hfi', st', hget', hid', hcnt'⟩ :=
        mem_locationsOfFolders.mp hl'
      have hst := h.slotToLoc f' hf' l'.index st' hget'
      rw [hid', hl] at hst
      injection hst with hll
      cases l'
      simp_all
  | none =>
      refine alookup_eq_none_of_not_mem ?_
      intro l' hl'
      obtain ⟨f', hf', hfi', st', hget', hid', hcnt'⟩ :=
        mem_locationsOfFolders.mp hl'
      have hst := h.slotToLoc f' hf' l'.index st' hget'
      rw [hid', hl] at hst
      exact Option.noConfusion hst

/-- The initial state is well-formed. -/
theorem WF_initSys : WF initSys := by
  refine ⟨rfl, rfl, List.nodup_nil, ?_, ?_, ?_, rfl, ?_⟩
  · intro f hf; simp [initSys] at hf
  · intro k l hl; exact Option.noConfusion hl
  · intro f hf; simp [initSys] at hf
  · intro i c hm; simp [initSys] at hm

theorem WF_addStorageFolder {s s' : Sys} {cap : Nat} (h : WF s)
    (hok : addStorageFolder s cap = .ok s') : WF s' := by
  rw [addStorageFolder] at hok
  by_cases hc : cap = 0 ∨ cap % storageFolderGranularity ≠ 0
  · rw [if_pos hc] at hok; exact Except.noConfusion hok
  rw [if_neg hc] at hok
  have hs' := (Except.ok.injEq .. ▸ hok).symm
  subst hs'
  set i := nextFolderIndex s.folders with hi
  have hfresh : ∀ f ∈ s.folders, f.index ≠ i := fun f hf =>
    Nat.ne_of_lt (nextFolderIndex_lt hf)
  refine ⟨?_, ?_, ?_, ?_, ?_, ?_, h.overflowEq, ?_⟩
  · simp [h.filesEq]
  · have hbase : baseFolderList
        { s with
          folders := s.folders ++ [⟨i, cap, List.replicate cap none, false, 0⟩],
          files := s.files ++ [(i, List.replicate cap none)],
          wal := s.wal ++ [.addFolder i cap] } = baseFolderList s := rfl
    rw [hbase]
    have : s.walTmp ++ (s.wal ++ [WalRecord.addFolder i cap]) =
        (s.walTmp ++ s.wal) ++ [WalRecord.addFolder i cap] := by
      rw [List.append_assoc]
    rw [this, replayFolders_append, h.replayEq]
    have hany : ((s.folders.map fun f => (f.index, f.capacity)).any
        fun e => e.1 == i) = false := by
      rw [List.any_eq_false]
      intro e he
      obtain ⟨f, hf, rfl⟩ := List.mem_map.mp he
      simp [hfresh f hf]
    rw [replayFolders, hany]
    simp [replayFolders]
  · simp only [List.map_append, List.map_cons, List.map_nil]
    refine (List.Perm.nodup_iff (List.perm_append_singleton _ _)).mpr ?_
    refine List.nodup_cons.mpr ⟨?_, h.idxNodup⟩
    intro hmem
    obtain ⟨f, hf, hfi⟩ := List.mem_map.mp hmem
    exact hfresh f hf hfi
  · intro f hf
    rcases List.mem_append.mp hf with hf | hf
    · exact h.capLen f hf
    · rcases List.mem_singleton.mp hf with rfl
      simp
  · intro k l hl
    obtain ⟨f, hf, rest⟩ := h.locToSlot k l hl
    exact ⟨f, List.mem_append_left _ hf, rest⟩
  · intro f hf j st hget
    rcases List.mem_append.mp hf with hf | hf
    · exact h.slotToLoc f hf j st hget
    · rcases List.mem_singleton.mp hf with rfl
      simp only [List.getElem?_replicate] at hget
      by_cases hj : j < cap
      · rw [if_pos hj] at hget
        exact Option.noConfusion (Option.some.injEq .. ▸ hget)
      · rw [if_neg hj] at hget
        exact Option.noConfusion hget
  · intro i' c' hm
    simp only [List.append_assoc] at hm
    rcases List.mem_append.mp hm with hm | hm
    · obtain ⟨f, hf, h1, h2⟩ := h.walFolders i' c'
        (List.mem_append_left _ hm)
      exact ⟨f, List.mem_append_left _ hf, h1, h2⟩
    · rcases List.mem_append.mp hm with hm | hm
      · obtain ⟨f, hf, h1, h2⟩ := h.walFolders i' c'
          (List.mem_append_right _ hm)
        exact ⟨f, List.mem_append_left _ hf, h1, h2⟩
      · have heq := List.mem_singleton.mp hm
        injection heq with h1 h2
        exact ⟨⟨i, cap, List.replicate cap none, false, 0⟩,
          List.mem_append_right _ (List.mem_singleton.mpr rfl),
          h1.symm, h2.symm⟩

theorem WF_addSector {cfg : Config} {s s' : Sys} {root data : Bytes}
    (h : WF s) (hok : addSector cfg s root data = .ok s') : WF s' := by
  rw [addSector] at hok
  by_cases hlen : data.length = cfg.sectorSize
  case neg =>
    rw [if_pos hlen] at hok
    exact Except.noConfusion hok
  rw [if_neg (fun hc => hc hlen)] at hok
  simp only at hok
  cases hloc : alookup (sectorId root) s.locations with
  | some loc =>
      rw [hloc] at hok
      simp only at hok
      obtain ⟨f₀, hf₀, hf₀i, st₀, hst₀get, hst₀id, hst₀cnt⟩ :=
        h.locToSlot (sectorId root) loc hloc
      by_cases hcnt : loc.count < maxUint16
      · rw [if_pos hcnt] at hok
        injection hok with hs'
        subst hs'
        refine ⟨?_, ?_, ?_, ?_, ?_, ?_, h.overflowEq, ?_⟩
        · show updateFile s.files loc.folder
              (fun sl => setSlotCount sl loc.index (loc.count + 1)) =
            (updateFolder s.folders loc.folder
              (fun f => { f with
                slots := setSlotCount f.slots loc.index (loc.count + 1) })).map
              fun f => (f.index, f.slots)
          rw [updateFolder_map_slots
            (g := fun f => { f with
              slots := setSlotCount f.slots loc.index (loc.count + 1) })
            (u := fun sl => setSlotCount sl loc.index (loc.count + 1))
            (fun f => ⟨rfl, rfl⟩), ← h.filesEq]
        · rw [show s.walTmp ++ (s.wal ++
              [WalRecord.sectorUpdate loc.folder loc.index (sectorId root)
                (loc.count + 1)]) =
              (s.walTmp ++ s.wal) ++
              [WalRecord.sectorUpdate loc.folder loc.index (sectorId root)
                (loc.count + 1)] from (List.append_assoc _ _ _).symm,
            replayFolders_append]
          have hbase : baseFolderList
              { s with
                locations := aset (sectorId root)
                  { loc with count := loc.count + 1 } s.locations,
                folders := updateFolder s.folders loc.folder
                  (fun f => { f with
                    slots := setSlotCount f.slots loc.index (loc.count + 1) }),
                files := updateFile s.files loc.folder
                  (fun sl => setSlotCount sl loc.index (loc.count + 1)),
                wal := s.wal ++ [.sectorUpdate loc.folder loc.index
                  (sectorId root) (loc.count + 1)] } = baseFolderList s := rfl
          rw [hbase, h.replayEq]
          show s.folders.map (fun f => (f.index, f.capacity)) =
            (updateFolder s.folders loc.folder
              (fun f => { f with
                slots := setSlotCount f.slots loc.index (loc.count + 1) })).map
              fun f => (f.index, f.capacity)
          rw [updateFolder_map_proj
            (g := fun f => { f with
              slots := setSlotCount f.slots loc.index (loc.count + 1) })
            (fun f => ⟨rfl, rfl⟩)]
        · show ((updateFolder s.folders loc.folder
              (fun f => { f with
                slots := setSlotCount f.slots loc.index (loc.count + 1) })).map
              Folder.index).Nodup
          rw [updateFolder_map_index
            (g := fun f => { f with
              slots := setSlotCount f.slots loc.index (loc.count + 1) })
            (fun f => rfl)]
          exact h.idxNodup
        · intro f' hf'
          obtain ⟨f, hf, heq⟩ := mem_updateFolder_elim hf'
          by_cases hi : f.index = loc.folder <;>
            rw [heq] <;> simp only [hi, if_pos, if_neg, if_true, if_false]
          · simp only [setSlotCount_length]
            exact h.capLen f hf
          · exact h.capLen f hf
        · intro k l hl'
          by_cases hk : sectorId root = k
          · subst hk
            rw [alookup_aset_self] at hl'
            injection hl' with hl'
            subst hl'
            refine ⟨{ f₀ with
                slots := setSlotCount f₀.slots loc.index (loc.count + 1) },
              ?_, hf₀i, { st₀ with count := loc.count + 1 }, ?_, hst₀id, rfl⟩
            · have := mem_updateFolder_of_mem (i := loc.folder)
                (fun f => { f with
                  slots := setSlotCount f.slots loc.index (loc.count + 1) }) hf₀
              rw [if_pos hf₀i] at this
              exact this
            · exact setSlotCount_get_self hst₀get
          · rw [alookup_aset_ne _ _ _ hk] at hl'
            obtain ⟨f₁, hf₁, hf₁i, st₁, hst₁get, hst₁id, hst₁cnt⟩ :=
              h.locToSlot k l hl'
            by_cases hi : f₁.index = loc.folder
            · have hff : f₁ = f₀ :=
                folder_index_inj h.idxNodup hf₁ hf₀ (hi.trans hf₀i.symm)
              subst hff
              by_cases hj : l.index = loc.index
              · rw [hj] at hst₁get
                rw [hst₀get] at hst₁get
                injection hst₁get with hst₁get
                injection hst₁get with hst₁get
                rw [← hst₁get] at hst₁id
                exact absurd (hst₀id.symm.trans hst₁id) hk
              · refine ⟨{ f₁ with
                    slots := setSlotCount f₁.slots loc.index (loc.count + 1) },
                  ?_, hf₁i, st₁, ?_, hst₁id, hst₁cnt⟩
                · have := mem_updateFolder_of_mem (i := loc.folder)
                    (fun f => { f with
                      slots := setSlotCount f.slots loc.index (loc.count + 1) })
                    hf₁
                  rw [if_pos hi] at this
                  exact this
                · rw [setSlotCount_get_ne fun he => hj (he.symm)]
                  exact hst₁get
            · refine ⟨f₁, ?_, hf₁i, st₁, hst₁get, hst₁id, hst₁cnt⟩
              have := mem_updateFolder_of_mem (i := loc.folder)
                (fun f => { f with
                  slots := setSlotCount f.slots loc.index (loc.count + 1) }) hf₁
              rw [if_neg hi] at this
              exact this
        · intro f' hf' j st' hget'
          obtain ⟨f, hf, heq⟩ := mem_updateFolder_elim hf'
          by_cases hi : f.index = loc.folder
          · rw [heq, if_pos hi] at hget' ⊢
            have hff : f = f₀ :=
              folder_index_inj h.idxNodup hf hf₀ (hi.trans hf₀i.symm)
            subst hff
            by_cases hj : j = loc.index
            · subst hj
              rw [setSlotCount_get_self hst₀get] at hget'
              injection hget' with hget'
              injection hget' with hget'
              subst hget'
              simp only
              rw [hst₀id, alookup_aset_self]
              rw [hi]
            · rw [setSlotCount_get_ne fun he => hj he.symm] at hget'
              have hold := h.slotToLoc f hf j st' hget'
              by_cases hk : st'.id = sectorId root
              · rw [hk, hloc] at hold
                injection hold with hold
                exact absurd (by rw [hold] : j = loc.index) hj
              · simp only
                rw [alookup_aset_ne _ _ _ fun he => hk he.symm]
                exact hold
          · rw [heq, if_neg hi] at hget' ⊢
            have hold := h.slotToLoc f hf j st' hget'
            by_cases hk : st'.id = sectorId root
            · rw [hk, hloc] at hold
              injection hold with hold
              exact absurd (by rw [hold] : f.index = loc.folder) hi
            · rw [alookup_aset_ne _ _ _ fun he => hk he.symm]
              exact hold
        · intro i' c' hm
          obtain ⟨f, hf, h1, h2⟩ := h.walFolders i' c' (by
            rcases List.mem_append.mp hm with hm | hm
            · exact List.mem_append_left _ hm
            · rcases List.mem_append.mp hm with hm | hm
              · exact List.mem_append_right _ hm
              · exact absurd (List.mem_singleton.mp hm)
                  (by intro he; exact WalRecord.noConfusion he))
          refine ⟨if f.index = loc.folder
              then { f with
                slots := setSlotCount f.slots loc.index (loc.count + 1) }
              else f, mem_updateFolder_of_mem _ hf, ?_, ?_⟩
          · by_cases hi : f.index = loc.folder
            · rw [if_pos hi]; exact h1
            · rw [if_neg hi]; exact h1
          · by_cases hi : f.index = loc.folder
            · rw [if_pos hi]; exact h2
            · rw [if_neg hi]; exact h2
      · rw [if_neg hcnt] at hok
        injection hok with hs'
        subst hs'
        refine ⟨h.filesEq, ?_, h.idxNodup, h.capLen, h.locToSlot,
          h.slotToLoc, ?_, ?_⟩
        · rw [show s.walTmp ++ (s.wal ++
              [WalRecord.overflowUpdate (sectorId root)
                ((alookup (sectorId root) s.overflow).getD 0 + 1)]) =
              (s.walTmp ++ s.wal) ++
              [WalRecord.overflowUpdate (sectorId root)
                ((alookup (sectorId root) s.overflow).getD 0 + 1)] from
              (List.append_assoc _ _ _).symm,
            replayFolders_append]
          exact h.replayEq
        · rw [h.overflowEq]
        · intro i' c' hm
          refine h.walFolders i' c' (by
            rcases List.mem_append.mp hm with hm | hm
            · exact List.mem_append_left _ hm
            · rcases List.mem_append.mp hm with hm | hm
              · exact List.mem_append_right _ hm
              · exact absurd (List.mem_singleton.mp hm)
                  (by intro he; exact WalRecord.noConfusion he))
  | none =>
      rw [hloc] at hok
      simp only at hok
      cases htp : tryPlace (sectorId root) data s.folders with
      | mk folders' r =>
          rw [htp] at hok
          cases r with
          | none => exact Except.noConfusion hok
          | some pr =>
              obtain ⟨fi, si⟩ := pr
              simp only at hok
              injection hok with hs'
              subst hs'
              obtain ⟨⟨f₀, hf₀, hf₀i, hf₀fail, hf₀free, hf₀mem⟩, hfwd, hbwd⟩ :=
                tryPlace_ok_spec htp
              have hsilen : si < f₀.slots.length := findFreeSlot_lt_length hf₀free
              have hprojeq : folders'.map (fun f => (f.index, f.capacity)) =
                  s.folders.map fun f => (f.index, f.capacity) := by
                have := tryPlace_proj (sectorId root) data s.folders
                rw [htp] at this
                exact this
              have hidxeq : folders'.map Folder.index =
                  s.folders.map Folder.index := by
                have h1 : folders'.map Folder.index =
                    (folders'.map fun f => (f.index, f.capacity)).map
                      Prod.fst := by
                  rw [List.map_map]; rfl
                rw [h1, hprojeq, List.map_map]
                rfl
              refine ⟨?_, ?_, ?_, ?_, ?_, ?_, h.overflowEq, ?_⟩
              · rw [tryPlace_filesMap h.idxNodup htp, ← h.filesEq]
              · rw [show s.walTmp ++ (s.wal ++
                    [WalRecord.sectorUpdate fi si (sectorId root) 1]) =
                    (s.walTmp ++ s.wal) ++
                    [WalRecord.sectorUpdate fi si (sectorId root) 1] from
                    (List.append_assoc _ _ _).symm,
                  replayFolders_append]
                have hbase : baseFolderList
                    { s with
                      folders := folders',
                      files := updateFile s.files fi
                        (fun sl => sl.set si (some ⟨sectorId root, 1, data⟩)),
                      locations := (sectorId root,
                        ⟨fi, si, 1⟩) :: s.locations,
                      wal := s.wal ++
                        [.sectorUpdate fi si (sectorId root) 1] } =
                    baseFolderList s := rfl
                rw [hbase, h.replayEq, ← hprojeq]
                rfl
              · rw [hidxeq]
                exact h.idxNodup
              · intro f' hf'
                obtain ⟨f, hf, h1, h2, h3⟩ := hfwd f' hf'
                rcases h3 with h3 | ⟨_, _, _, h3⟩
                · rw [← h3, ← h2]
                  exact h.capLen f hf
                · rw [h3, List.length_set, ← h2]
                  exact h.capLen f hf
              · intro k l hl'
                rw [alookup_cons] at hl'
                by_cases hk : sectorId root = k
                · rw [if_pos hk] at hl'
                  injection hl' with hl'
                  subst hl'
                  subst hk
                  refine ⟨{ f₀ with
                      slots := f₀.slots.set si (some ⟨sectorId root, 1, data⟩) },
                    hf₀mem, hf₀i, ⟨sectorId root, 1, data⟩, ?_, rfl, rfl⟩
                  exact List.getElem?_set_self hsilen
                · rw [if_neg hk] at hl'
                  obtain ⟨f₁, hf₁, hf₁i, st₁, hst₁get, hst₁id, hst₁cnt⟩ :=
                    h.locToSlot k l hl'
                  obtain ⟨f₁', hf₁', h1, h2, h3⟩ := hbwd f₁ hf₁
                  rcases h3 with h3 | ⟨hidx, _, hfree₁, h3⟩
                  · exact ⟨f₁', hf₁', h1.trans hf₁i, st₁, h3 ▸ hst₁get,
                      hst₁id, hst₁cnt⟩
                  · refine ⟨f₁', hf₁', h1.trans hf₁i, st₁, ?_, hst₁id, hst₁cnt⟩
                    rw [h3]
                    by_cases hj : l.index = si
                    · rw [hj] at hst₁get
                      rw [findFreeSlot_spec hfree₁] at hst₁get
                      exact absurd (Option.some.injEq .. ▸ hst₁get)
                        (by intro he; exact Option.noConfusion he)
                    · rw [List.getElem?_set_ne fun he => hj he.symm]
                      exact hst₁get
              · intro f' hf' j st' hget'
                obtain ⟨f, hf, h1, h2, h3⟩ := hfwd f' hf'
                show alookup st'.id
                    ((sectorId root, (⟨fi, si, 1⟩ : Location)) :: s.locations) =
                  some ⟨f'.index, j, st'.count⟩
                rcases h3 with h3 | ⟨hidx, _, hfree₁, h3⟩
                · rw [← h3] at hget'
                  have hold := h.slotToLoc f hf j st' hget'
                  have hk : st'.id ≠ sectorId root := by
                    intro he
                    rw [he, hloc] at hold
                    exact Option.noConfusion hold
                  rw [alookup_cons, if_neg fun he => hk he.symm, hold, h1]
                · by_cases hj : j = si
                  · subst hj
                    rw [h3, List.getElem?_set_self
                      (findFreeSlot_lt_length hfree₁)] at hget'
                    injection hget' with hget'
                    injection hget' with hget'
                    subst hget'
                    rw [alookup_cons, if_pos rfl, hidx]
                  · rw [h3, List.getElem?_set_ne fun he => hj he.symm] at hget'
                    have hold := h.slotToLoc f hf j st' hget'
                    have hk : st'.id ≠ sectorId root := by
                      intro he
                      rw [he, hloc] at hold
                      exact Option.noConfusion hold
                    rw [alookup_cons, if_neg fun he => hk he.symm, hold, h1]
              · intro i' c' hm
                obtain ⟨f, hf, h1, h2⟩ := h.walFolders i' c' (by
                  rcases List.mem_append.mp hm with hm | hm
                  · exact List.mem_append_left _ hm
                  · rcases List.mem_append.mp hm with hm | hm
                    · exact List.mem_append_right _ hm
                    · exact absurd (List.mem_singleton.mp hm)
                        (by intro he; exact WalRecord.noConfusion he))
                obtain ⟨f', hf', hi1, hi2, _⟩ := hbwd f hf
                exact ⟨f', hf', hi1.trans h1, hi2.trans h2⟩

/-- Every reachable state is well-formed. -/
theorem WF_of_reachable {cfg : Config} {s : Sys} (h : Reachable cfg s) :
    WF s := by
  induction h with
  | init => exact WF_initSys
  | addFolder _ hok ih => exact WF_addStorageFolder ih hok
  | addSector _ hok ih => exact WF_addSector ih hok

theorem close_files (s : Sys) (b : Bool) : (close s b).files = s.files := by
  cases b <;> rfl

theorem close_overflowFile (s : Sys) (b : Bool) :
    (close s b).overflowFile = s.overflowFile := by
  cases b <;> rfl

/-- After a checkpoint — clean or with the settings rename and WAL deletion
suppressed — the settings base composed with WAL replay still yields the
in-memory folder list. -/
theorem baseFolderList_close_replay {s : Sys} (h : WF s) (b : Bool) :
    replayFolders (baseFolderList (close s b))
        ((close s b).walTmp ++ (close s b).wal) =
      s.folders.map fun f => (f.index, f.capacity) := by
  cases b with
  | false =>
      show replayFolders
        ((settingsOfSys s).folders.map fun e => (e.1, e.2.1)) ([] ++ []) = _
      rw [settingsOfSys]
      simp only [List.map_map]
      rfl
  | true =>
      cases hsd : s.settingsDat with
      | some st =>
          have hb : baseFolderList (close s true) = baseFolderList s := by
            show baseFolderList { s with
              settingsTmp := some (settingsOfSys s) } = baseFolderList s
            rw [baseFolderList, baseFolderList, hsd]
          rw [hb]
          exact h.replayEq
      | none =>
          have hb : baseFolderList (close s true) =
              s.folders.map fun f => (f.index, f.capacity) := by
            show baseFolderList { s with
              settingsTmp := some (settingsOfSys s) } = _
            rw [baseFolderList, hsd]
            simp only [settingsOfSys, List.map_map]
            rfl
          rw [hb]
          refine replayFolders_stable ?_
          intro i c hm
          obtain ⟨f, hf, h1, h2⟩ := h.walFolders i c hm
          rw [List.any_eq_true]
          refine ⟨(f.index, f.capacity), List.mem_map_of_mem _ hf, ?_⟩
          simp [h1]

/-- Restarting after a (possibly disrupted) checkpoint reconstructs exactly
the in-memory folders, with health counters and fault injection reset. -/
theorem recover_close_folders {s : Sys} (h : WF s) (b : Bool) :
    (recover (close s b)).folders =
      s.folders.map fun f => ⟨f.index, f.capacity, f.slots, false, 0⟩ := by
  show (replayFolders (baseFolderList (close s b))
      ((close s b).walTmp ++ (close s b).wal)).map
      (fun e => rebuildFolder (close s b).files e.1 e.2) = _
  rw [baseFolderList_close_replay h b, close_files, List.map_map]
  refine List.map_congr_left ?_
  intro f hf
  show rebuildFolder s.files f.index f.capacity = _
  rw [rebuildFolder]
  have : alookup f.index s.files = some f.slots := by
    rw [h.filesEq]
    exact alookup_files_of_mem h.idxNodup hf
  rw [this]
  rfl

theorem locationsOfFolders_reset (fs : List Folder) :
    locationsOfFolders
        (fs.map fun f => ⟨f.index, f.capacity, f.slots, false, 0⟩) =
      locationsOfFolders fs := by
  induction fs with
  | nil => rfl
  | cons f rest ih =>
      simp only [List.map_cons, locationsOfFolders, List.flatMap_cons] at ih ⊢
      rw [ih]

theorem recover_close_locations {s : Sys} (h : WF s) (b : Bool) :
    (recover (close s b)).locations = locationsOfFolders s.folders := by
  show locationsOfFolders ((replayFolders (baseFolderList (close s b))
      ((close s b).walTmp ++ (close s b).wal)).map
      fun e => rebuildFolder (close s b).files e.1 e.2) = _
  have hfold := recover_close_folders h b
  rw [show ((replayFolders (baseFolderList (close s b))
      ((close s b).walTmp ++ (close s b).wal)).map
      fun e => rebuildFolder (close s b).files e.1 e.2) =
      (recover (close s b)).folders from rfl, hfold,
    locationsOfFolders_reset]

theorem findFolder_map_reset (fs : List Folder) (j : Nat) :
    findFolder (fs.map fun f => ⟨f.index, f.capacity, f.slots, false, 0⟩) j =
      (findFolder fs j).map fun f => ⟨f.index, f.capacity, f.slots, false, 0⟩ := by
  induction fs with
  | nil => rfl
  | cons f rest ih =>
      simp only [List.map_cons, findFolder, List.find?_cons] at ih ⊢
      cases hj : f.index == j with
      | true => simp [hj]
      | false =>
          simp only [hj]
          exact ih

/-- Reads are unaffected by a close/reopen cycle. -/
theorem readSector_recover_close {s : Sys} (h : WF s) (b : Bool)
    (root : Bytes) :
    readSector (recover (close s b)) root = readSector s root := by
  rw [readSector, readSector]
  have hloc : alookup (sectorId root) (recover (close s b)).locations =
      alookup (sectorId root) s.locations := by
    rw [recover_close_locations h b]
    exact derived_lookup_eq h (sectorId root)
  rw [hloc]
  cases hl : alookup (sectorId root) s.locations with
  | none => rfl
  | some loc =>
      dsimp only
      have hff : findFolder (recover (close s b)).folders loc.folder =
          (findFolder s.folders loc.folder).map
            fun f => ⟨f.index, f.capacity, f.slots, false, 0⟩ := by
        rw [recover_close_folders h b]
        exact findFolder_map_reset s.folders loc.folder
      rw [hff]
      cases hfo : findFolder s.folders loc.folder with
      | none => rfl
      | some f => rfl

/-- C1: For every storage-folder configuration and payload of exactly
`sector_size` bytes, after a successful `AddSector(root, data)`,
`ReadSector(root)` succeeds and returns exactly `data`.  (The hypothesis
`hprev` reflects content addressing: any sector already stored under this
root's ID holds the same bytes — in the source, the root is the Merkle root
of the payload.) -/
theorem C1_addSector_readSector {cfg : Config} {s s' : Sys}
    {root data : Bytes} (hnd : (s.folders.map Folder.index).Nodup)
    (hprev : alookup (sectorId root) s.locations = none ∨
      readSector s root = .ok data)
    (hok : addSector cfg s root data = .ok s') :
    readSector s' root = .ok data := by
  rw [addSector] at hok
  by_cases hlen : data.length = cfg.sectorSize
  case neg =>
    rw [if_pos hlen] at hok
    exact Except.noConfusion hok
  rw [if_neg (fun hc => hc hlen)] at hok
  simp only at hok
  cases hloc : alookup (sectorId root) s.locations with
  | some loc =>
      rw [hloc] at hok
      simp only at hok
      rcases hprev with hprev | hread
      · rw [hprev] at hloc
        exact Option.noConfusion hloc
      have hread₀ := hread
      rw [readSector, hloc] at hread
      simp only at hread
      cases hfo : findFolder s.folders loc.folder with
      | none => rw [hfo] at hread; exact Except.noConfusion hread
      | some f =>
          rw [hfo] at hread
          simp only at hread
          cases hsl : f.slots[loc.index]? with
          | none => rw [hsl] at hread; exact Except.noConfusion hread
          | some o =>
              cases o with
              | none => rw [hsl] at hread; exact Except.noConfusion hread
              | some st =>
                  rw [hsl] at hread
                  simp only at hread
                  injection hread with hdata
                  have hfi : f.index = loc.folder := (findFolder_some hfo).2
                  by_cases hcnt : loc.count < maxUint16
                  · rw [if_pos hcnt] at hok
                    injection hok with hs'
                    subst hs'
                    have hfold := @findFolder_updateFolder s.folders
                      loc.folder loc.folder
                      (fun f => { f with
                        slots := setSlotCount f.slots loc.index
                          (loc.count + 1) }) (fun f => rfl)
                    rw [hfo] at hfold
                    simp only [Option.map_some'] at hfold
                    rw [if_pos hfi] at hfold
                    simp only [readSector, alookup_aset_self, hfold,
                      setSlotCount_get_self hsl, hdata]
                  · rw [if_neg hcnt] at hok
                    injection hok with hs'
                    subst hs'
                    exact hread₀
  | none =>
      rw [hloc] at hok
      simp only at hok
      cases htp : tryPlace (sectorId root) data s.folders with
      | mk folders' r =>
          rw [htp] at hok
          cases r with
          | none => exact Except.noConfusion hok
          | some pr =>
              obtain ⟨fi, si⟩ := pr
              simp only at hok
              injection hok with hs'
              subst hs'
              obtain ⟨⟨f₀, hf₀, hf₀i, hf₀fail, hf₀free, hf₀mem⟩, hfwd, hbwd⟩ :=
                tryPlace_ok_spec htp
              have hsilen : si < f₀.slots.length :=
                findFreeSlot_lt_length hf₀free
              have hidxeq : folders'.map Folder.index =
                  s.folders.map Folder.index := by
                have hp := tryPlace_proj (sectorId root) data s.folders
                rw [htp] at hp
                have h1 : folders'.map Folder.index =
                    (folders'.map fun f => (f.index, f.capacity)).map
                      Prod.fst := by
                  rw [List.map_map]; rfl
                rw [h1, hp, List.map_map]
                rfl
              have hnd' : (folders'.map Folder.index).Nodup := by
                rw [hidxeq]; exact hnd
              have hfind : findFolder folders' fi = some
                  { index := fi, capacity := f₀.capacity,
                    slots := f₀.slots.set si
                      (some ⟨sectorId root, 1, data⟩),
                    failing := f₀.failing,
                    failedWrites := f₀.failedWrites } := by
                have hmm := findFolder_eq_some_of_mem hnd' hf₀mem
                dsimp only at hmm
                rw [hf₀i] at hmm
                exact hmm
              simp only [readSector, alookup_cons, eq_self_iff_true, if_true,
                hfind, List.getElem?_set_self hsilen]

/-- C2: For every state reachable by `AddStorageFolder` and `AddSector`,
closing the manager — even with the settings rename and WAL deletion
suppressed, so that recovery must replay the WAL records — and reopening on
the same persist directory restores an equivalent state: the folder list,
used capacity, sector locations with their reference counts, and the
overflow map are unchanged, and every previously added sector reads back
with the same bytes. -/
theorem C2_close_recover_equiv {cfg : Config} {s : Sys}
    (hreach : Reachable cfg s) (b : Bool) :
    ((recover (close s b)).folders.map fun f => (f.index, f.capacity)) =
      (s.folders.map fun f => (f.index, f.capacity)) ∧
    totalUsed (recover (close s b)).folders = totalUsed s.folders ∧
    (∀ k, alookup k (recover (close s b)).locations =
      alookup k s.locations) ∧
    (recover (close s b)).overflow = s.overflow ∧
    (∀ root, readSector (recover (close s b)) root = readSector s root) := by
  have h := WF_of_reachable hreach
  refine ⟨?_, ?_, ?_, ?_, fun root => readSector_recover_close h b root⟩
  · rw [recover_close_folders h b, List.map_map]
    rfl
  · rw [recover_close_folders h b, totalUsed, totalUsed, List.map_map]
    rfl
  · intro k
    rw [recover_close_locations h b]
    exact derived_lookup_eq h k
  · show (close s b).overflowFile = s.overflow
    rw [close_overflowFile]
    exact h.overflowEq

theorem usedSlots_cons (o : Option Slot) (rest : List (Option Slot)) :
    usedSlots (o :: rest) = (if o.isSome then 1 else 0) + usedSlots rest := by
  cases o <;> simp [usedSlots, List.filter_cons, Nat.add_comm]

theorem usedSlots_set_some : ∀ {slots : List (Option Slot)} {i : Nat}
    {x y : Slot}, slots[i]? = some (some y) →
    usedSlots (slots.set i (some x)) = usedSlots slots := by
  intro slots
  induction slots with
  | nil => intro i x y h; simp at h
  | cons o rest ih =>
      intro i x y h
      match i with
      | 0 =>
          have ho : o = some y := by simpa using h
          subst ho
          simp [List.set, usedSlots_cons]
      | i + 1 =>
          simp only [List.getElem?_cons_succ] at h
          simp only [List.set, usedSlots_cons]
          rw [ih h]

theorem usedSlots_setSlotCount (slots : List (Option Slot)) (i c : Nat) :
    usedSlots (setSlotCount slots i c) = usedSlots slots := by
  rw [setSlotCount]
  cases h : slots[i]? with
  | none => rfl
  | some o =>
      cases o with
      | none => rfl
      | some sl => exact usedSlots_set_some h

theorem totalUsed_cons (f : Folder) (rest : List Folder) :
    totalUsed (f :: rest) = folderUsed f + totalUsed rest := by
  simp [totalUsed]

theorem totalUsed_updateFolder {fs : List Folder} {i : Nat}
    {g : Folder → Folder} (hg : ∀ f, folderUsed (g f) = folderUsed f) :
    totalUsed (updateFolder fs i g) = totalUsed fs := by
  induction fs with
  | nil => rfl
  | cons f rest ih =>
      simp only [updateFolder, List.map_cons] at ih ⊢
      rw [totalUsed_cons, totalUsed_cons, ih]
      by_cases hi : f.index = i
      · rw [if_pos hi, hg f]
      · rw [if_neg hi]

/-- C3: an `AddSector` of a root whose primary count is saturated at 65,535
succeeds, leaves the primary count (in the location index and the folder
metadata) at 65,535, increments the overflow entry for that ID (creating it
at 1 on the 65,536th add), and persists the new value in the overflow file,
where it also survives a close/reopen cycle. -/
theorem C3_overflow_add {cfg : Config} {s : Sys} {root data : Bytes}
    {loc : Location} (hlen : data.length = cfg.sectorSize)
    (hloc : alookup (sectorId root) s.locations = some loc)
    (hcnt : loc.count = maxUint16) :
    ∃ s', addSector cfg s root data = .ok s' ∧
      alookup (sectorId root) s'.locations = some loc ∧
      s'.folders = s.folders ∧
      alookup (sectorId root) s'.overflow =
        some ((alookup (sectorId root) s.overflow).getD 0 + 1) ∧
      alookup (sectorId root) s'.overflowFile =
        some ((alookup (sectorId root) s.overflow).getD 0 + 1) ∧
      (∀ b : Bool, alookup (sectorId root) (recover (close s' b)).overflow =
        some ((alookup (sectorId root) s.overflow).getD 0 + 1)) := by
  have hnlt : ¬ loc.count < maxUint16 := by
    rw [hcnt]
    exact Nat.lt_irrefl _
  refine ⟨{ s with
      overflow := aset (sectorId root)
        ((alookup (sectorId root) s.overflow).getD 0 + 1) s.overflow,
      overflowFile := aset (sectorId root)
        ((alookup (sectorId root) s.overflow).getD 0 + 1) s.overflowFile,
      wal := s.wal ++ [.overflowUpdate (sectorId root)
        ((alookup (sectorId root) s.overflow).getD 0 + 1)] },
    ?_, hloc, rfl, ?_, ?_, ?_⟩
  · rw [addSector, if_neg (fun hc => hc hlen)]
    simp only
    rw [hloc]
    simp only
    rw [if_neg hnlt]
  · exact alookup_aset_self _ _ _
  · exact alookup_aset_self _ _ _
  · intro b
    show alookup (sectorId root) (close _ b).overflowFile = _
    rw [close_overflowFile]
    exact alookup_aset_self _ _ _

/-- C4: `RemoveSector` on a sector with saturated primary count and positive
overflow consumes overflow first: the overflow entry is decremented (kept
even when it reaches 0) and persisted in the overflow file, while the
primary count stays at 65,535 and the folders are untouched. -/
theorem C4_remove_overflow {s : Sys} {root : Bytes} {loc : Location}
    {o : Nat} (hloc : alookup (sectorId root) s.locations = some loc)
    (hcnt : loc.count = maxUint16)
    (hov : alookup (sectorId root) s.overflow = some (o + 1)) :
    ∃ s', removeSector s root = .ok s' ∧
      alookup (sectorId root) s'.locations = some loc ∧
      s'.folders = s.folders ∧
      alookup (sectorId root) s'.overflow = some o ∧
      alookup (sectorId root) s'.overflowFile = some o ∧
      (∀ b : Bool, alookup (sectorId root)
        (recover (close s' b)).overflow = some o) := by
  refine ⟨{ s with
      overflow := aset (sectorId root) o s.overflow,
      overflowFile := aset (sectorId root) o s.overflowFile,
      wal := s.wal ++ [.overflowUpdate (sectorId root) o] },
    ?_, hloc, rfl, ?_, ?_, ?_⟩
  · rw [removeSector]
    simp only
    rw [hloc]
    simp only
    rw [hov]
  · exact alookup_aset_self _ _ _
  · exact alookup_aset_self _ _ _
  · intro b
    show alookup (sectorId root) (close _ b).overflowFile = _
    rw [close_overflowFile]
    exact alookup_aset_self _ _ _

/-- C5: a partial read of a stored sector returns exactly the requested
byte range whenever `offset + length ≤ sector_size` (including the
zero-length read at `offset = sector_size`), and fails with `OutOfBounds`
whenever `offset + length > sector_size`. -/
theorem C5_readPartialSector {cfg : Config} {s : Sys} {root data : Bytes}
    (hread : readSector s root = .ok data)
    (hlen : data.length = cfg.sectorSize) (off n : Nat) :
    (off + n ≤ cfg.sectorSize →
      readPartialSector cfg s root off n = .ok ((data.drop off).take n)) ∧
    (cfg.sectorSize < off + n →
      readPartialSector cfg s root off n = .error .outOfBounds) := by
  constructor
  · intro hle
    rw [readPartialSector, if_neg (by omega), hread]
  · intro hgt
    rw [readPartialSector, if_pos hgt]

/-- C6: an `AddSector` of an already-stored root with unsaturated count
succeeds, increments exactly that sector's reference count, allocates no new
physical slot, and leaves the consumed capacity and folder list unchanged. -/
theorem C6_virtual_add {cfg : Config} {s : Sys} {root data : Bytes}
    {loc : Location} (hlen : data.length = cfg.sectorSize)
    (hloc : alookup (sectorId root) s.locations = some loc)
    (hcnt : loc.count < maxUint16) :
    ∃ s', addSector cfg s root data = .ok s' ∧
      alookup (sectorId root) s'.locations =
        some { loc with count := loc.count + 1 } ∧
      (∀ k, k ≠ sectorId root →
        alookup k s'.locations = alookup k s.locations) ∧
      (s'.folders.map fun f => (f.index, f.capacity)) =
        (s.folders.map fun f => (f.index, f.capacity)) ∧
      totalUsed s'.folders = totalUsed s.folders := by
  refine ⟨{ s with
      locations := aset (sectorId root)
        { loc with count := loc.count + 1 } s.locations,
      folders := updateFolder s.folders loc.folder
        (fun f => { f with
          slots := setSlotCount f.slots loc.index (loc.count + 1) }),
      files := updateFile s.files loc.folder
        (fun sl => setSlotCount sl loc.index (loc.count + 1)),
      wal := s.wal ++ [.sectorUpdate loc.folder loc.index (sectorId root)
        (loc.count + 1)] }, ?_, ?_, ?_, ?_, ?_⟩
  · rw [addSector, if_neg (fun hc => hc hlen)]
    simp only
    rw [hloc]
    simp only
    rw [if_pos hcnt]
  · exact alookup_aset_self _ _ _
  · intro k hk
    exact alookup_aset_ne _ _ _ (fun he => hk he.symm) _
  · show (updateFolder s.folders loc.folder
      (fun f => { f with
        slots := setSlotCount f.slots loc.index (loc.count + 1) })).map
      (fun f => (f.index, f.capacity)) = _
    rw [updateFolder_map_proj
      (g := fun f => { f with
        slots := setSlotCount f.slots loc.index (loc.count + 1) })
      (fun f => ⟨rfl, rfl⟩)]
  · show totalUsed (updateFolder s.folders loc.folder
      (fun f => { f with
        slots := setSlotCount f.slots loc.index (loc.count + 1) })) = _
    exact totalUsed_updateFolder
      (fun f => usedSlots_setSlotCount f.slots loc.index (loc.count + 1))

/-- C7: for a fresh sector ID and a correctly sized payload, `AddSector`
fails with `InsufficientStorage` exactly when no storage folder accepts the
write — every folder either has no free slot or fails its writes; in
particular, while some healthy folder has a free slot, the call does not
return `InsufficientStorage`. -/
theorem C7_insufficientStorage_iff {cfg : Config} {s : Sys}
    {root data : Bytes} (hlen : data.length = cfg.sectorSize)
    (hnew : alookup (sectorId root) s.locations = none) :
    addSector cfg s root data = .error .insufficientStorage ↔
      ∀ f ∈ s.folders, f.failing = true ∨ findFreeSlot f.slots = none := by
  rw [addSector, if_neg (fun hc => hc hlen)]
  simp only
  rw [hnew]
  simp only
  cases htp : tryPlace (sectorId root) data s.folders with
  | mk folders' r =>
      cases r with
      | none =>
          constructor
          · intro _
            exact (tryPlace_snd_none_iff (sectorId root) data s.folders).mp
              (by rw [htp])
          · intro _
            rfl
      | some pr =>
          obtain ⟨fi, si⟩ := pr
          constructor
          · intro hc
            exact Except.noConfusion hc
          · intro hall
            have hnone := (tryPlace_snd_none_iff (sectorId root) data
              s.folders).mpr hall
            rw [htp] at hnone
            exact Option.noConfusion hnone

/-- Modelled from the spec: a sequence of `AddSector` calls, stopping at the
first failure (used to state the multi-add scenarios of the tests). -/
def addSectors (cfg : Config) (s : Sys) :
    List (Bytes × Bytes) → Except CMErr Sys
  | [] => .ok s
  | (root, data) :: rest =>
      match addSector cfg s root data with
      | .ok s' => addSectors cfg s' rest
      | .error e => .error e

theorem usedSlots_set_fresh : ∀ {slots : List (Option Slot)} {i : Nat}
    {x : Slot}, slots[i]? = some none →
    usedSlots (slots.set i (some x)) = usedSlots slots + 1 := by
  intro slots
  induction slots with
  | nil => intro i x h; simp at h
  | cons o rest ih =>
      intro i x h
      match i with
      | 0 =>
          have ho : o = none := by simpa using h
          subst ho
          simp only [List.set, usedSlots_cons]
          simp [Nat.add_comm]
      | i + 1 =>
          simp only [List.getElem?_cons_succ] at h
          simp only [List.set, usedSlots_cons]
          rw [ih h]
          omega

theorem usedSlots_eq_length_of_all : ∀ {slots : List (Option Slot)},
    (∀ o ∈ slots, o.isSome) → usedSlots slots = slots.length := by
  intro slots
  induction slots with
  | nil => intro _; rfl
  | cons o rest ih =>
      intro h
      rw [usedSlots_cons, List.length_cons,
        ih fun o ho => h o (List.mem_cons_of_mem _ ho)]
      have := h o (List.mem_cons_self _ _)
      rw [this]
      simp only [eq_self_iff_true, if_true]
      omega

theorem findFreeSlot_isSome_of_lt {slots : List (Option Slot)}
    (h : usedSlots slots < slots.length) :
    ∃ j, findFreeSlot slots = some j := by
  cases hf : findFreeSlot slots with
  | some j => exact ⟨j, rfl⟩
  | none =>
      have := usedSlots_eq_length_of_all (findFreeSlot_none.mp hf)
      omega

/-- One `AddSector` against a failing first folder and a healthy second
folder: the reservation in the failing folder is rolled back (its slots are
unchanged), its failed-write counter is incremented, and the sector lands in
the healthy folder. -/
theorem addSector_two_folders {cfg : Config} {s : Sys} {root data : Bytes}
    {fA fB : Folder} {jA jB : Nat}
    (hfolders : s.folders = [fA, fB])
    (hlen : data.length = cfg.sectorSize)
    (hnew : alookup (sectorId root) s.locations = none)
    (hAfail : fA.failing = true)
    (hBfail : fB.failing = false)
    (hAfree : findFreeSlot fA.slots = some jA)
    (hBfree : findFreeSlot fB.slots = some jB) :
    addSector cfg s root data = .ok { s with
      folders := [{ fA with failedWrites := fA.failedWrites + 1 },
        { fB with
          slots := fB.slots.set jB (some ⟨sectorId root, 1, data⟩) }],
      files := updateFile s.files fB.index
        (fun sl => sl.set jB (some ⟨sectorId root, 1, data⟩)),
      locations := (sectorId root, ⟨fB.index, jB, 1⟩) :: s.locations,
      wal := s.wal ++ [.sectorUpdate fB.index jB (sectorId root) 1] } := by
  have htp : tryPlace (sectorId root) data s.folders =
      ([{ fA with failedWrites := fA.failedWrites + 1 },
        { fB with
          slots := fB.slots.set jB (some ⟨sectorId root, 1, data⟩) }],
        some (fB.index, jB)) := by
    rw [hfolders, tryPlace, hAfree, hAfail]
    simp only [if_pos]
    rw [tryPlace, hBfree, hBfail]
    simp only [Bool.false_eq_true, if_false]
  rw [addSector, if_neg (fun hc => hc hlen)]
  simp only
  rw [hnew]
  simp only
  rw [htp]

/-- Iterated adds against a failing and a healthy folder: every add
succeeds, the failing folder's slots never change while its failed-write
counter grows by one per add, and every sector lands in the healthy
folder. -/
theorem addSectors_two_folders {cfg : Config} :
    ∀ (pairs : List (Bytes × Bytes)) (s : Sys) (fA fB : Folder),
      s.folders = [fA, fB] →
      fA.failing = true → fB.failing = false →
      (∃ jA, findFreeSlot fA.slots = some jA) →
      pairs.length + usedSlots fB.slots ≤ fB.slots.length →
      (∀ p ∈ pairs, (p.2).length = cfg.sectorSize) →
      (∀ p ∈ pairs, alookup (sectorId p.1) s.locations = none) →
      ((pairs.map fun p => sectorId p.1).Nodup) →
      ∃ s' fB', addSectors cfg s pairs = .ok s' ∧
        s'.folders = [{ fA with
          failedWrites := fA.failedWrites + pairs.length }, fB'] ∧
        fB'.index = fB.index ∧ fB'.failing = false ∧
        fB'.capacity = fB.capacity ∧
        fB'.slots.length = fB.slots.length ∧
        usedSlots fB'.slots = usedSlots fB.slots + pairs.length := by
  intro pairs
  induction pairs with
  | nil =>
      intro s fA fB hfolders _ hBfail _ _ _ _ _
      exact ⟨s, fB, rfl, hfolders, rfl, hBfail, rfl, rfl, rfl⟩
  | cons p rest ih =>
      intro s fA fB hfolders hAfail hBfail hAfree hcap hlen hfresh hnodup
      obtain ⟨jA, hAfree⟩ := hAfree
      obtain ⟨root, data⟩ := p
      have hused : usedSlots fB.slots < fB.slots.length := by
        simp only [List.length_cons] at hcap
        omega
      obtain ⟨jB, hBfree⟩ := findFreeSlot_isSome_of_lt hused
      have hstep := addSector_two_folders hfolders
        (hlen (root, data) (List.mem_cons_self _ _)) 
        (hfresh (root, data) (List.mem_cons_self _ _)) hAfail hBfail
        hAfree hBfree
      have hslotB : fB.slots[jB]? = some none := findFreeSlot_spec hBfree
      obtain ⟨s', fB', hrun, hfold', hidx', hfail', hcapB', hlen', hused'⟩ :=
        ih { s with
            folders := [{ fA with failedWrites := fA.failedWrites + 1 },
              { fB with
                slots := fB.slots.set jB (some ⟨sectorId root, 1, data⟩) }],
            files := updateFile s.files fB.index
              (fun sl => sl.set jB (some ⟨sectorId root, 1, data⟩)),
            locations := (sectorId root, ⟨fB.index, jB, 1⟩) :: s.locations,
            wal := s.wal ++ [.sectorUpdate fB.index jB (sectorId root) 1] }
          { fA with failedWrites := fA.failedWrites + 1 }
          { fB with
            slots := fB.slots.set jB (some ⟨sectorId root, 1, data⟩) }
          rfl hAfail hBfail ⟨jA, hAfree⟩
          (by
            show rest.length +
              usedSlots (fB.slots.set jB (some ⟨sectorId root, 1, data⟩)) ≤
              (fB.slots.set jB (some ⟨sectorId root, 1, data⟩)).length
            rw [usedSlots_set_fresh hslotB, List.length_set]
            simp only [List.length_cons] at hcap
            omega)
          (fun p hp => hlen p (List.mem_cons_of_mem _ hp))
          (by
            intro p hp
            show alookup (sectorId p.1)
              ((sectorId root, (⟨fB.index, jB, 1⟩ : Location)) ::
                s.locations) = none
            rw [alookup_cons]
            simp only [List.map_cons, List.nodup_cons] at hnodup
            have hne : sectorId root ≠ sectorId p.1 := by
              intro he
              exact hnodup.1 (he ▸ List.mem_map_of_mem _ hp)
            rw [if_neg hne]
            exact hfresh p (List.mem_cons_of_mem _ hp))
          (by
            simp only [List.map_cons, List.nodup_cons] at hnodup
            exact hnodup.2)
      refine ⟨s', fB', ?_, ?_, hidx'.trans rfl, hfail',
        hcapB'.trans rfl, ?_, ?_⟩
      · rw [addSectors]
        rw [hstep]
        exact hrun
      · rw [hfold']
        have : fA.failedWrites + 1 + rest.length =
            fA.failedWrites + (rest.length + 1) := by omega
        rw [show ({ fA with failedWrites := fA.failedWrites + 1 } :
            Folder).failedWrites = fA.failedWrites + 1 from rfl, this]
        rfl
      · rw [hlen', List.length_set]
      · rw [hused', usedSlots_set_fresh hslotB, List.length_cons]
        omega

/-- C8: with two folders, the first failing its writes and the second
healthy, a sequence of distinct fresh adds all succeeds: each attempt on the
failing folder is rolled back (its slots end unchanged) and increments its
failed-write counter, every sector is placed in the healthy folder, and in
the 100-add scenario of the tests the healthy folder ends with strictly
more than 50 sectors while the failing folder reports failed writes. -/
theorem C8_failing_folder {cfg : Config} {s : Sys} {fA fB : Folder}
    {pairs : List (Bytes × Bytes)}
    (hfolders : s.folders = [fA, fB])
    (hAfail : fA.failing = true) (hBfail : fB.failing = false)
    (hAfree : ∃ jA, findFreeSlot fA.slots = some jA)
    (hcap : pairs.length + usedSlots fB.slots ≤ fB.slots.length)
    (hlen : ∀ p ∈ pairs, (p.2).length = cfg.sectorSize)
    (hfresh : ∀ p ∈ pairs, alookup (sectorId p.1) s.locations = none)
    (hnodup : (pairs.map fun p => sectorId p.1).Nodup) :
    ∃ s' fB', addSectors cfg s pairs = .ok s' ∧
      s'.folders = [{ fA with
        failedWrites := fA.failedWrites + pairs.length }, fB'] ∧
      fB'.index = fB.index ∧
      usedSlots fB'.slots = usedSlots fB.slots + pairs.length ∧
      (pairs.length = 100 → usedSlots fB.slots = 0 →
        50 < usedSlots fB'.slots ∧ 0 < fA.failedWrites + pairs.length) := by
  obtain ⟨s', fB', hrun, hfold', hidx', _, _, _, hused'⟩ :=
    addSectors_two_folders pairs s fA fB hfolders hAfail hBfail hAfree hcap
      hlen hfresh hnodup
  refine ⟨s', fB', hrun, hfold', hidx', hused', ?_⟩
  intro h100 h0
  rw [hused', h100, h0]
  omega

end ContractManager

namespace Renter

/-- A renter file path (`modules.SiaPath`), used as a map key. -/
abbrev SiaPath := String

/-- The `stuckQueue` type: a FIFO queue of files that have had a stuck chunk
successfully repaired, with a companion set (`siaPaths`, a Go map) of the
paths currently tracked. -/
structure StuckQueue where
  queue : List SiaPath
  siaPaths : List SiaPath
deriving Repr, DecidableEq

/-- The zero value of `stuckQueue`: empty queue, empty path set. -/
def emptyStuckQueue : StuckQueue := ⟨[], []⟩

/-- `stuckQueue.managedLen`: the length of the queue. -/
def managedLen (sq : StuckQueue) : Nat := sq.queue.length

/-- `stuckQueue.managedPush`: returns the queue unchanged when it already
holds `maxSuccessfulStuckRepairFiles` entries (the bound is a package
constant, taken here as the parameter `maxFiles`) or when the path is
already tracked; otherwise appends the path to the queue and records it in
the path set. -/
def managedPush (maxFiles : Nat) (sq : StuckQueue) (siaPath : SiaPath) :
    StuckQueue :=
  if maxFiles ≤ sq.queue.length then sq
  else if siaPath ∈ sq.siaPaths then sq
  else ⟨sq.queue ++ [siaPath], siaPath :: sq.siaPaths⟩

/-- `stuckQueue.managedPop`: removes and returns the first element of the
queue and deletes it from the path set.  The Go code indexes `sq.queue[0]`
unconditionally, so the operation is only meaningful on a non-empty queue;
the empty case is `none` here. -/
def managedPop (sq : StuckQueue) : Option (SiaPath × StuckQueue) :=
  match sq.queue with
  | [] => none
  | sp :: rest => some (sp, ⟨rest, sq.siaPaths.erase sp⟩)

/-- The states of a `stuckQueue` reachable from the zero value under any
interleaving of `managedPush` and `managedPop` (with `managedPop` only
called on a non-empty queue). -/
inductive QueueReachable (maxFiles : Nat) : StuckQueue → Prop
  | init : QueueReachable maxFiles emptyStuckQueue
  | push {sq : StuckQueue} (p : SiaPath) :
      QueueReachable maxFiles sq →
      QueueReachable maxFiles (managedPush maxFiles sq p)
  | pop {sq sq' : StuckQueue} {p : SiaPath} :
      QueueReachable maxFiles sq → managedPop sq = some (p, sq') →
      QueueReachable maxFiles sq'

/-- An `unfinishedUploadChunk` as far as the stuck-chunk loop manipulates
it: an identifier and the `stuckRepair` flag the loop body sets. -/
structure UnfinishedUploadChunk where
  chunkId : Nat
  stuckRepair : Bool
deriving Repr, DecidableEq

/-- The loop of `managedAddStuckChunksToHeap` guarded by
`len(unfinishedStuckChunks) < 0 && stuckChunksAdded < maxStuckChunksInHeap`.
The upload heap and its `managedPush` are external to this file's Go source,
so they are abstracted as a state `heap` and a function `push` returning the
new heap and whether the chunk was accepted (an accepted chunk increments
`stuckChunksAdded`; a rejected one is skipped).  Returns the heap, the
remaining chunk list, and `stuckChunksAdded`. -/
def addStuckChunksLoop {H : Type} (maxStuckChunksInHeap : Nat)
    (push : H → UnfinishedUploadChunk → H × Bool) (heap : H) :
    List UnfinishedUploadChunk → Nat →
    H × List UnfinishedUploadChunk × Nat
  | chunks, added =>
      if chunks.length < 0 ∧ added < maxStuckChunksInHeap then
        match chunks with
        | [] => (heap, [], added)
        | c :: rest =>
            let pushed := push heap { c with stuckRepair := true }
            if pushed.2 then
              addStuckChunksLoop maxStuckChunksInHeap push pushed.1 rest
                (added + 1)
            else
              addStuckChunksLoop maxStuckChunksInHeap push pushed.1 rest added
      else (heap, chunks, added)

/-- C9: the loop of `managedAddStuckChunksToHeap` guarded by
`len(unfinishedStuckChunks) < 0 && stuckChunksAdded < maxStuckChunksInHeap`
is unreachable: for every input the body executes zero times, so the heap,
the chunk list and `stuckChunksAdded` come back exactly as they went in — in
particular no stuck chunk is ever pushed onto the upload heap by this loop
and `stuckChunksAdded` stays 0 when it starts at 0. -/
theorem C9_stuck_loop_unreachable {H : Type} (maxStuckChunksInHeap : Nat)
    (push : H → UnfinishedUploadChunk → H × Bool) (heap : H)
    (chunks : List UnfinishedUploadChunk) (added : Nat) :
    addStuckChunksLoop maxStuckChunksInHeap push heap chunks added =
      (heap, chunks, added) := by
  rw [addStuckChunksLoop.eq_def]
  dsimp only
  rw [if_neg fun hc => Nat.not_lt_zero _ hc.1]

theorem managedPush_full {maxFiles : Nat} {sq : StuckQueue} {p : SiaPath}
    (hfull : maxFiles ≤ sq.queue.length) : managedPush maxFiles sq p = sq := by
  rw [managedPush, if_pos hfull]

theorem managedPush_mem {maxFiles : Nat} {sq : StuckQueue} {p : SiaPath}
    (hmem : p ∈ sq.siaPaths) : managedPush maxFiles sq p = sq := by
  rw [managedPush]
  by_cases hfull : maxFiles ≤ sq.queue.length
  · rw [if_pos hfull]
  · rw [if_neg hfull, if_pos hmem]

theorem queueInv_of_reachable {maxFiles : Nat} {sq : StuckQueue}
    (h : QueueReachable maxFiles sq) :
    sq.queue.Nodup ∧ sq.siaPaths.Nodup ∧
      (∀ p, p ∈ sq.siaPaths ↔ p ∈ sq.queue) ∧
      sq.queue.length ≤ maxFiles := by
  induction h with
  | init =>
      refine ⟨List.nodup_nil, List.nodup_nil, ?_, Nat.zero_le _⟩
      intro p
      simp [emptyStuckQueue]
  | push p hr ih =>
      obtain ⟨hq, hs, hiff, hlen⟩ := ih
      rename_i sq'
      rw [managedPush]
      by_cases hfull : maxFiles ≤ sq'.queue.length
      · rw [if_pos hfull]
        exact ⟨hq, hs, hiff, hlen⟩
      · rw [if_neg hfull]
        by_cases hmem : p ∈ sq'.siaPaths
        · rw [if_pos hmem]
          exact ⟨hq, hs, hiff, hlen⟩
        · rw [if_neg hmem]
          have hpq : p ∉ sq'.queue := fun hc => hmem ((hiff p).mpr hc)
          refine ⟨?_, ?_, ?_, ?_⟩
          · exact (List.Perm.nodup_iff
              (List.perm_append_singleton _ _)).mpr
              (List.nodup_cons.mpr ⟨hpq, hq⟩)
          · exact List.nodup_cons.mpr ⟨hmem, hs⟩
          · intro q
            show q ∈ p :: sq'.siaPaths ↔ q ∈ sq'.queue ++ [p]
            rw [List.mem_cons, List.mem_append, List.mem_singleton, hiff q]
            tauto
          · show (sq'.queue ++ [p]).length ≤ maxFiles
            rw [List.length_append, List.length_singleton]
            omega
  | pop hr hpop ih =>
      obtain ⟨hq, hs, hiff, hlen⟩ := ih
      rename_i sq₀ sq' p
      cases hqe : sq₀.queue with
      | nil => rw [managedPop, hqe] at hpop; exact Option.noConfusion hpop
      | cons sp rest =>
          rw [managedPop, hqe] at hpop
          simp only [Option.some.injEq, Prod.mk.injEq] at hpop
          obtain ⟨hp, hsq'⟩ := hpop
          subst hsq'
          rw [hqe] at hq hlen
          rw [List.nodup_cons] at hq
          refine ⟨hq.2, List.Nodup.erase sp hs, ?_, ?_⟩
          · intro q
            show q ∈ sq₀.siaPaths.erase sp ↔ q ∈ rest
            rw [List.Nodup.mem_erase_iff hs, hiff q, hqe, List.mem_cons]
            constructor
            · rintro ⟨hne, h | h⟩
              · exact absurd h hne
              · exact h
            · intro hmem
              exact ⟨fun he => hq.1 (he ▸ hmem), Or.inr hmem⟩
          · show rest.length ≤ maxFiles
            rw [List.length_cons] at hlen
            omega

/-- C10: every state of the `stuckQueue` reachable under any interleaving
of `managedPush` and `managedPop` (with pops only on a non-empty queue)
keeps the invariant: the queue holds no duplicate path, the `siaPaths` set
holds exactly the queued paths, and the queue never exceeds the
`maxSuccessfulStuckRepairFiles` bound; consequently pushing an
already-queued path, or pushing onto a full queue, leaves the queue
unchanged. -/
theorem C10_stuckQueue_invariant {maxFiles : Nat} {sq : StuckQueue}
    (h : QueueReachable maxFiles sq) :
    (sq.queue.Nodup ∧
      (∀ p, p ∈ sq.siaPaths ↔ p ∈ sq.queue) ∧
      sq.queue.length ≤ maxFiles) ∧
    (∀ p, p ∈ sq.queue → managedPush maxFiles sq p = sq) ∧
    (maxFiles ≤ sq.queue.length →
      ∀ p, managedPush maxFiles sq p = sq) := by
  obtain ⟨hq, hs, hiff, hlen⟩ := queueInv_of_reachable h
  refine ⟨⟨hq, hiff, hlen⟩, ?_, ?_⟩
  · intro p hp
    exact managedPush_mem ((hiff p).mpr hp)
  · intro hfull p
    exact managedPush_full hfull

end Renter

namespace ContractManager

/-- A small concrete configuration (4-byte sectors) used to evaluate the
engine on concrete states. -/
def exCfg : Config := ⟨4⟩

/-- A concrete sector payload of `exCfg.sectorSize` bytes. -/
def exData : Bytes := [9, 8, 7, 6]

/-- A concrete Merkle root. -/
def exRoot : Bytes := [1]

/-- The state after adding one 64-sector storage folder to a fresh
manager. -/
def exS1 : Sys :=
  { folders := [⟨0, 64, List.replicate 64 none, false, 0⟩],
    locations := [], overflow := [], settingsDat := none,
    settingsTmp := none, wal := [.addFolder 0 64], walTmp := [],
    files := [(0, List.replicate 64 none)], overflowFile := [] }

/-- The slot holding `exData` under the ID of `exRoot`. -/
def exSlot : Slot := ⟨[1], 1, exData⟩

/-- The state after additionally adding the sector `(exRoot, exData)`. -/
def exS2 : Sys :=
  { folders := [⟨0, 64, (List.replicate 64 none).set 0 (some exSlot),
      false, 0⟩],
    locations := [([1], ⟨0, 0, 1⟩)], overflow := [], settingsDat := none,
    settingsTmp := none,
    wal := [.addFolder 0 64, .sectorUpdate 0 0 [1] 1], walTmp := [],
    files := [(0, (List.replicate 64 none).set 0 (some exSlot))],
    overflowFile := [] }

theorem C1_witness :
    ((exS1.folders.map Folder.index).Nodup ∧
      alookup (sectorId exRoot) exS1.locations = none ∧
      addSector exCfg exS1 exRoot exData = .ok exS2) ∧
    readSector exS2 exRoot = .ok exData := by
  have hnd : (exS1.folders.map Folder.index).Nodup := by decide
  have hprev : alookup (sectorId exRoot) exS1.locations = none := rfl
  have hok : addSector exCfg exS1 exRoot exData = .ok exS2 := by decide
  exact ⟨⟨hnd, hprev, hok⟩,
    C1_addSector_readSector hnd (Or.inl hprev) hok⟩

theorem C2_witness :
    Reachable exCfg exS2 ∧
      readSector (recover (close exS2 true)) exRoot = .ok exData := by
  have h1 : addStorageFolder initSys 64 = .ok exS1 := by decide
  have h2 : addSector exCfg exS1 exRoot exData = .ok exS2 := by decide
  have hreach : Reachable exCfg exS2 := .addSector (.addFolder .init h1) h2
  refine ⟨hreach, ?_⟩
  have hrd := (C2_close_recover_equiv hreach true).2.2.2.2 exRoot
  rw [hrd]
  decide

/-- The slot of `exRoot` with its primary count saturated at 65,535. -/
def exSlotMax : Slot := ⟨[1], maxUint16, exData⟩

/-- A state holding `exRoot` with saturated primary count and an empty
overflow map. -/
def exSMax : Sys :=
  { folders := [⟨0, 64, (List.replicate 64 none).set 0 (some exSlotMax),
      false, 0⟩],
    locations := [([1], ⟨0, 0, maxUint16⟩)], overflow := [],
    settingsDat := none, settingsTmp := none, wal := [], walTmp := [],
    files := [(0, (List.replicate 64 none).set 0 (some exSlotMax))],
    overflowFile := [] }

theorem C3_witness :
    (exData.length = exCfg.sectorSize ∧
      alookup (sectorId exRoot) exSMax.locations =
        some ⟨0, 0, maxUint16⟩) ∧
    (∃ s', addSector exCfg exSMax exRoot exData = .ok s' ∧
      alookup (sectorId exRoot) s'.locations = some ⟨0, 0, maxUint16⟩ ∧
      alookup (sectorId exRoot) s'.overflow = some 1 ∧
      alookup (sectorId exRoot) s'.overflowFile = some 1) := by
  have hlen : exData.length = exCfg.sectorSize := rfl
  have hloc : alookup (sectorId exRoot) exSMax.locations =
      some ⟨0, 0, maxUint16⟩ := by decide
  refine ⟨⟨hlen, hloc⟩, ?_⟩
  obtain ⟨s', hok, hloc', _, hov, hovf, _⟩ :=
    C3_overflow_add hlen hloc rfl
  exact ⟨s', hok, hloc', hov, hovf⟩

/-- `exSMax` with one unit of overflow recorded for `exRoot`. -/
def exSOv : Sys :=
  { exSMax with overflow := [([1], 1)], overflowFile := [([1], 1)] }

theorem C4_witness :
    (alookup (sectorId exRoot) exSOv.locations = some ⟨0, 0, maxUint16⟩ ∧
      alookup (sectorId exRoot) exSOv.overflow = some 1) ∧
    (∃ s', removeSector exSOv exRoot = .ok s' ∧
      alookup (sectorId exRoot) s'.locations = some ⟨0, 0, maxUint16⟩ ∧
      alookup (sectorId exRoot) s'.overflow = some 0 ∧
      alookup (sectorId exRoot) s'.overflowFile = some 0) := by
  have hloc : alookup (sectorId exRoot) exSOv.locations =
      some ⟨0, 0, maxUint16⟩ := by decide
  have hov : alookup (sectorId exRoot) exSOv.overflow = some (0 + 1) := by
    decide
  refine ⟨⟨hloc, by decide⟩, ?_⟩
  obtain ⟨s', hok, hloc', _, hov', hovf', _⟩ :=
    C4_remove_overflow hloc rfl hov
  exact ⟨s', hok, hloc', hov', hovf'⟩

theorem C5_witness :
    (readSector exS2 exRoot = .ok exData ∧
      exData.length = exCfg.sectorSize) ∧
    readPartialSector exCfg exS2 exRoot 1 2 = .ok [8, 7] ∧
    readPartialSector exCfg exS2 exRoot 4 0 = .ok [] ∧
    readPartialSector exCfg exS2 exRoot 4 1 = .error .outOfBounds := by
  have hread : readSector exS2 exRoot = .ok exData := by decide
  have hlen : exData.length = exCfg.sectorSize := rfl
  refine ⟨⟨hread, hlen⟩, ?_, ?_, ?_⟩
  · exact (C5_readPartialSector hread hlen 1 2).1 (by decide)
  · exact (C5_readPartialSector hread hlen 4 0).1 (by decide)
  · exact (C5_readPartialSector hread hlen 4 1).2 (by decide)

theorem C6_witness :
    (exData.length = exCfg.sectorSize ∧
      alookup (sectorId exRoot) exS2.locations = some ⟨0, 0, 1⟩ ∧
      (1 : Nat) < maxUint16) ∧
    (∃ s', addSector exCfg exS2 exRoot exData = .ok s' ∧
      alookup (sectorId exRoot) s'.locations = some ⟨0, 0, 2⟩ ∧
      totalUsed s'.folders = totalUsed exS2.folders) := by
  have hlen : exData.length = exCfg.sectorSize := rfl
  have hloc : alookup (sectorId exRoot) exS2.locations =
      some ⟨0, 0, 1⟩ := by decide
  have hcnt : (⟨0, 0, 1⟩ : Location).count < maxUint16 := by decide
  refine ⟨⟨hlen, hloc, by decide⟩, ?_⟩
  obtain ⟨s', hok, hloc', _, _, hused⟩ := C6_virtual_add hlen hloc hcnt
  exact ⟨s', hok, hloc', hused⟩

/-- A state whose single 64-sector folder is completely full. -/
def exSFull : Sys :=
  { folders := [⟨0, 64, List.replicate 64 (some exSlot), false, 0⟩],
    locations := [], overflow := [], settingsDat := none,
    settingsTmp := none, wal := [], walTmp := [],
    files := [(0, List.replicate 64 (some exSlot))], overflowFile := [] }

theorem C7_witness :
    (exData.length = exCfg.sectorSize ∧
      alookup (sectorId [2]) exSFull.locations = none) ∧
    addSector exCfg exSFull [2] exData = .error .insufficientStorage := by
  have hlen : exData.length = exCfg.sectorSize := rfl
  have hnew : alookup (sectorId [2]) exSFull.locations = none := rfl
  exact ⟨⟨hlen, hnew⟩,
    (C7_insufficientStorage_iff hlen hnew).mpr (by decide)⟩

/-- 100 fresh sectors with distinct IDs. -/
def exPairs : List (Bytes × Bytes) :=
  (List.range 100).map fun k => ([k], exData)

/-- A failing 128-sector folder. -/
def exFA : Folder := ⟨0, 128, List.replicate 128 none, true, 0⟩

/-- A healthy 128-sector folder. -/
def exFB : Folder := ⟨1, 128, List.replicate 128 none, false, 0⟩

/-- A state with the failing folder `exFA` and the healthy folder
`exFB`. -/
def exSAB : Sys :=
  { folders := [exFA, exFB], locations := [], overflow := [],
    settingsDat := none, settingsTmp := none, wal := [], walTmp := [],
    files := [(0, List.replicate 128 none), (1, List.replicate 128 none)],
    overflowFile := [] }

set_option maxRecDepth 10000 in
theorem C8_witness :
    (exSAB.folders = [exFA, exFB] ∧ exFA.failing = true ∧
      exFB.failing = false ∧ findFreeSlot exFA.slots = some 0 ∧
      exPairs.length + usedSlots exFB.slots ≤ exFB.slots.length ∧
      (∀ p ∈ exPairs, (p.2).length = exCfg.sectorSize) ∧
      (∀ p ∈ exPairs, alookup (sectorId p.1) exSAB.locations = none) ∧
      (exPairs.map fun p => sectorId p.1).Nodup) ∧
    (∃ s' fB', addSectors exCfg exSAB exPairs = .ok s' ∧
      s'.folders = [{ exFA with failedWrites := 100 }, fB'] ∧
      50 < usedSlots fB'.slots) := by
  have hfolders : exSAB.folders = [exFA, exFB] := rfl
  have hAfail : exFA.failing = true := rfl
  have hBfail : exFB.failing = false := rfl
  have hAfree : findFreeSlot exFA.slots = some 0 := by decide
  have hcap : exPairs.length + usedSlots exFB.slots ≤
      exFB.slots.length := by decide
  have hplen : ∀ p ∈ exPairs, (p.2).length = exCfg.sectorSize := by decide
  have hfresh : ∀ p ∈ exPairs,
      alookup (sectorId p.1) exSAB.locations = none := by decide
  have hnodup : (exPairs.map fun p => sectorId p.1).Nodup := by decide
  refine ⟨⟨hfolders, hAfail, hBfail, hAfree, hcap, hplen, hfresh,
    hnodup⟩, ?_⟩
  obtain ⟨s', fB', hrun, hfold, _, _, himp⟩ :=
    C8_failing_folder hfolders hAfail hBfail ⟨0, hAfree⟩ hcap hplen
      hfresh hnodup
  obtain ⟨h50, _⟩ := himp (by decide) (by decide)
  refine ⟨s', fB', hrun, ?_, h50⟩
  have h100 : exPairs.length = 100 := by decide
  rw [hfold, h100]
  rfl

end ContractManager

namespace Renter

theorem C10_witness :
    QueueReachable 2 ⟨["b"], ["b"]⟩ ∧
      (["b"] : List SiaPath).Nodup ∧
      managedPush 2 ⟨["b"], ["b"]⟩ "b" = ⟨["b"], ["b"]⟩ := by
  have h0 : QueueReachable 2 emptyStuckQueue := QueueReachable.init
  have h1 : QueueReachable 2 ⟨["a"], ["a"]⟩ := by
    have h := QueueReachable.push "a" h0
    have e : managedPush 2 emptyStuckQueue "a" = ⟨["a"], ["a"]⟩ := by decide
    rw [e] at h
    exact h
  have h2 : QueueReachable 2 ⟨["a", "b"], ["b", "a"]⟩ := by
    have h := QueueReachable.push "b" h1
    have e : managedPush 2 ⟨["a"], ["a"]⟩ "b" =
        ⟨["a", "b"], ["b", "a"]⟩ := by decide
    rw [e] at h
    exact h
  have e3 : managedPop ⟨["a", "b"], ["b", "a"]⟩ =
      some ("a", ⟨["b"], ["b"]⟩) := by decide
  have h3 : QueueReachable 2 ⟨["b"], ["b"]⟩ := QueueReachable.pop h2 e3
  refine ⟨h3, (C10_stuckQueue_invariant h3).1.1, ?_⟩
  exact (C10_stuckQueue_invariant h3).2.1 "b" (by decide)

end Renter
